import Mathlib

/-!
# Verification of the CardMaker PNG character-card codec

Shallow embedding of the PNG tEXt-chunk codec (`embedCardIntoPng`,
`extractCardFromPng`, `buildTextChunk`, `parseTextChunkKeyword` from the
codec module, and `crc32` from `src/lib/crc32.ts`) over `List Nat` byte
sequences, together with proofs of the frozen claims.

Modelling conventions:
* A byte buffer (`Uint8Array`) is a `List Nat` whose members are `< 256`
  (predicate `ByteList`).
* JavaScript 32-bit operations (`>>>`, `&`, `^`, table indexing) are
  rendered with `Nat` division/modulus/`^^^`; for the values that actually
  occur (all `< 2 ^ 32`) this agrees with the JS semantics.
* Strings are represented by their UTF-8 byte sequences.  `TextEncoder`
  is then the identity, and `TextDecoder("utf-8", {fatal:true})` is a
  validity check (`utf8Valid`, the WHATWG/RFC 3629 strict decoder).
  `TextDecoder("ascii")` (windows-1252) decoding of the base64 text bytes
  followed by `atob`, and of the 4-byte type tags followed by comparison
  with ASCII literals, is rendered at the byte level: the byte-to-code-point
  map of windows-1252 is injective, maps bytes `< 128` identically, and maps
  no byte `≥ 128` into the base64 alphabet, whitespace, `=`, or ASCII tags,
  so the byte-level rendering has identical observable behaviour.
* `btoa`/`atob` are the WHATWG operations (standard alphabet with padding;
  forgiving-base64 decode), modelled on byte lists.
* Thrown exceptions are rendered as error values: `embedCardIntoPng`
  returns `EmbedResult` (`ok`/`errNotAPng`/`errCorruptChunk` for its two
  `throw new Error` sites), and the extraction decode failures surface as
  the `decodeError` outcome.
-/

namespace CardMaker

/-- All members of the list are bytes (`Uint8Array` invariant). -/
def ByteList (l : List Nat) : Prop := ∀ b ∈ l, b < 256

instance : DecidablePred ByteList := fun l =>
  inferInstanceAs (Decidable (∀ b ∈ l, b < 256))

/-- `const PNG_SIGNATURE = new Uint8Array([137, 80, 78, 71, 13, 10, 26, 10])`. -/
def pngSignature : List Nat := [137, 80, 78, 71, 13, 10, 26, 10]

/-- `readUint32BE`: big-endian 32-bit read at `offset`
(`(buf[o] << 24) | ... | buf[o+3]`, normalised with `>>> 0`).
Out-of-range indices default to `0`; every call site is in bounds. -/
def readUint32BE (buf : List Nat) (offset : Nat) : Nat :=
  buf.getD offset 0 * 2 ^ 24 + buf.getD (offset + 1) 0 * 2 ^ 16 +
    buf.getD (offset + 2) 0 * 2 ^ 8 + buf.getD (offset + 3) 0

/-- `writeUint32BE`: the four bytes `(value >>> 24) & 0xff`, ...,
`value & 0xff` (JS `>>>` first coerces to the value modulo `2 ^ 32`). -/
def writeUint32BE (value : Nat) : List Nat :=
  [value % 2 ^ 32 / 2 ^ 24, value % 2 ^ 24 / 2 ^ 16, value % 2 ^ 16 / 2 ^ 8, value % 2 ^ 8]

/-! ## CRC-32 (`src/lib/crc32.ts`) -/

/-- One inner iteration of the table builder:
`crc = crc & 1 ? (0xedb88320 ^ (crc >>> 1)) : (crc >>> 1)`. -/
def crcStep (crc : Nat) : Nat :=
  if crc % 2 = 1 then 0xedb88320 ^^^ (crc / 2) else crc / 2

/-- `makeCrc32Table` entry `i`: eight `crcStep`s applied to `i`. -/
def crcTableEntry (i : Nat) : Nat := crcStep^[8] i

/-- One step of the `crc32` loop:
`crc = CRC32_TABLE[(crc ^ b) & 0xff] ^ (crc >>> 8)`. -/
def crc32Update (crc b : Nat) : Nat :=
  crcTableEntry ((crc ^^^ b) % 256) ^^^ (crc / 256)

/-- `crc32`: fold the table-driven update over the bytes starting from
`0xffffffff`, then complement (`(crc ^ 0xffffffff) >>> 0`). -/
def crc32 (bytes : List Nat) : Nat :=
  (bytes.foldl crc32Update 0xffffffff) ^^^ 0xffffffff

/-- Modelled from the spec: one bit of the reflected CRC-32 reference
algorithm with polynomial `0xEDB88320` ("if the LSB is set, shift right
and XOR with the polynomial, else shift right"). -/
def crc32RefStep (crc : Nat) : Nat :=
  if crc % 2 = 1 then (crc / 2) ^^^ 0xedb88320 else crc / 2

/-- Modelled from the spec: the reference per-byte update — XOR the byte
into the low bits, then run eight polynomial bit steps. -/
def crc32RefUpdate (crc b : Nat) : Nat := crc32RefStep^[8] (crc ^^^ b)

/-- Modelled from the spec: the reflected CRC-32 reference definition —
initial value `0xFFFFFFFF`, per-byte bit-serial update, final
XOR-complement (ISO/IEC 15948 Annex D). -/
def crc32Ref (bytes : List Nat) : Nat :=
  (bytes.foldl crc32RefUpdate 0xffffffff) ^^^ 0xffffffff

/-! ## base64 (WHATWG `btoa` / forgiving-base64 `atob`) -/

/-- ASCII codes of the standard base64 alphabet
`A..Z a..z 0..9 + /` in index order. -/
def b64Alphabet : List Nat :=
  [65, 66, 67, 68, 69, 70, 71, 72, 73, 74, 75, 76, 77, 78, 79, 80, 81, 82,
   83, 84, 85, 86, 87, 88, 89, 90,
   97, 98, 99, 100, 101, 102, 103, 104, 105, 106, 107, 108, 109, 110, 111,
   112, 113, 114, 115, 116, 117, 118, 119, 120, 121, 122,
   48, 49, 50, 51, 52, 53, 54, 55, 56, 57, 43, 47]

/-- The alphabet character for a 6-bit value. -/
def b64Enc (v : Nat) : Nat := b64Alphabet.getD v 0

/-- The 6-bit value of an alphabet character (`none` for every code point
outside the alphabet, including `=` and whitespace). -/
def b64Val (c : Nat) : Option Nat := b64Alphabet.findIdx? (· == c)

/-- `btoa`: 3 input bytes become 4 alphabet characters; a trailing group
of 1 or 2 bytes is padded with `=` (code 61). -/
def btoa : List Nat → List Nat
  | [] => []
  | [a] => [b64Enc (a / 4), b64Enc (a % 4 * 16), 61, 61]
  | [a, b] => [b64Enc (a / 4), b64Enc (a % 4 * 16 + b / 16), b64Enc (b % 16 * 4), 61]
  | a :: b :: c :: rest =>
    b64Enc (a / 4) :: b64Enc (a % 4 * 16 + b / 16) :: b64Enc (b % 16 * 4 + c / 64) ::
      b64Enc (c % 64) :: btoa rest

/-- ASCII whitespace removed by forgiving-base64 decode. -/
def isB64Ws (c : Nat) : Bool := c == 9 || c == 10 || c == 12 || c == 13 || c == 32

/-- Drop one trailing `=` (code 61) if present. -/
def dropOnePad (l : List Nat) : List Nat :=
  if l.getLast? = some 61 then l.dropLast else l

/-- Forgiving-base64 step: when the length is a multiple of 4, remove up
to two trailing `=`. -/
def stripPad (l : List Nat) : List Nat :=
  if l.length % 4 = 0 then dropOnePad (dropOnePad l) else l

/-- Map every character to its 6-bit value; fail on any character outside
the alphabet. -/
def b64Vals : List Nat → Option (List Nat)
  | [] => some []
  | c :: cs =>
    match b64Val c, b64Vals cs with
    | some v, some vs => some (v :: vs)
    | _, _ => none

/-- Reassemble bytes from 6-bit values: full groups of 4 yield 3 bytes; a
trailing group of 2 or 3 values yields 1 or 2 bytes (the leftover 4 or 2
low bits are discarded). -/
def decodeB64Vals : List Nat → List Nat
  | v1 :: v2 :: v3 :: v4 :: rest =>
    (v1 * 4 + v2 / 16) :: (v2 % 16 * 16 + v3 / 4) :: (v3 % 4 * 64 + v4) :: decodeB64Vals rest
  | [v1, v2] => [v1 * 4 + v2 / 16]
  | [v1, v2, v3] => [v1 * 4 + v2 / 16, v2 % 16 * 16 + v3 / 4]
  | _ => []

/-- `atob` (WHATWG forgiving-base64 decode): strip ASCII whitespace, strip
up to two trailing `=` when the length is a multiple of 4, fail when the
remaining length is `1 mod 4` or any character is outside the alphabet,
then reassemble the bytes. -/
def atob (input : List Nat) : Option (List Nat) :=
  let d := stripPad (input.filter (fun c => !isB64Ws c))
  if d.length % 4 = 1 then none
  else (b64Vals d).map decodeB64Vals

/-- `base64EncodeUtf8` at the byte level: `TextEncoder().encode` is the
identity on the UTF-8 byte representation, `bytesToBinaryString` then
`btoa` is `btoa` on the bytes. -/
def base64EncodeUtf8 (bytes : List Nat) : List Nat := btoa bytes

/-! ## UTF-8 validation (`TextDecoder("utf-8", { fatal: true })`) -/

/-- A UTF-8 continuation byte (`0x80..0xBF`). -/
def utf8Cont (b : Nat) : Bool := 0x80 ≤ b && b ≤ 0xBF

/-- Strict UTF-8 validity of a byte sequence, per the WHATWG UTF-8 decoder
(equivalently RFC 3629): rejects overlong forms, surrogates and code
points above `U+10FFFF`.  `TextDecoder("utf-8", {fatal:true})` succeeds
exactly on valid sequences, and on them decoding is injective, so at the
byte level the fatal decoder is the identity guarded by this predicate. -/
def utf8Valid : List Nat → Bool
  | [] => true
  | b1 :: rest =>
    if b1 ≤ 0x7F then utf8Valid rest
    else if 0xC2 ≤ b1 && b1 ≤ 0xDF then
      match rest with
      | b2 :: r => utf8Cont b2 && utf8Valid r
      | [] => false
    else if 0xE0 ≤ b1 && b1 ≤ 0xEF then
      match rest with
      | b2 :: b3 :: r =>
        (if b1 = 0xE0 then 0xA0 ≤ b2 && b2 ≤ 0xBF
         else if b1 = 0xED then 0x80 ≤ b2 && b2 ≤ 0x9F
         else utf8Cont b2) && utf8Cont b3 && utf8Valid r
      | _ => false
    else if 0xF0 ≤ b1 && b1 ≤ 0xF4 then
      match rest with
      | b2 :: b3 :: b4 :: r =>
        (if b1 = 0xF0 then 0x90 ≤ b2 && b2 ≤ 0xBF
         else if b1 = 0xF4 then 0x80 ≤ b2 && b2 ≤ 0x8F
         else utf8Cont b2) && utf8Cont b3 && utf8Cont b4 && utf8Valid r
      | _ => false
    else false

/-- `base64DecodeUtf8`: `atob` on the (ascii-decoded) text, then a fatal
UTF-8 decode of the resulting bytes.  `none` renders the two exception
paths (invalid base64, invalid UTF-8). -/
def base64DecodeUtf8 (b64 : List Nat) : Option (List Nat) :=
  (atob b64).bind fun bytes => if utf8Valid bytes then some bytes else none

/-! ## The codec (`extractCardFromPng` / `embedCardIntoPng`) -/

/-- ASCII bytes of the chunk type tag `"tEXt"`. -/
def tEXtType : List Nat := [116, 69, 88, 116]

/-- ASCII bytes of the chunk type tag `"IEND"`. -/
def iendType : List Nat := [73, 69, 78, 68]

/-- ASCII bytes of the carrier keyword `"chara"`. -/
def charaKw : List Nat := [99, 104, 97, 114, 97]

/-- ASCII bytes of the carrier keyword `"ccv3"`. -/
def ccv3Kw : List Nat := [99, 99, 118, 51]

/-- The `keyword: "chara" | "ccv3"` union of `ExtractedPngCard`. -/
inductive CardKeyword where
  | chara
  | ccv3
deriving DecidableEq, Repr

/-- Result of `extractCardFromPng`: `null`, an `ExtractedPngCard`, or a
thrown decode failure. -/
inductive ExtractOutcome where
  | notFound
  | card (keyword : CardKeyword) (jsonText : List Nat)
  | decodeError
deriving DecidableEq, Repr

/-- `parseTextChunkKeyword`: split a tEXt payload at its first NUL byte
(`indexOf(0)`); `null` when there is no NUL or the keyword would be empty
(`nullIndex <= 0`).  The keyword is compared (after a non-fatal UTF-8
decode, injective on these byte sequences) against `"chara"`/`"ccv3"`, so
keeping the raw keyword bytes is faithful. -/
def parseTextChunkKeyword (chunkData : List Nat) : Option (List Nat × List Nat) :=
  match chunkData.findIdx? (· == 0) with
  | none => none
  | some nullIndex =>
    if nullIndex = 0 then none
    else some (chunkData.take nullIndex, chunkData.drop (nullIndex + 1))

/-- The chunk-scanning loop of `extractCardFromPng`, acting on the byte
suffix that starts at the current offset (`offset + 12 <= pngBytes.length`
becomes `12 ≤ rest.length`, slices become `take`/`drop`). -/
def extractLoop (rest : List Nat) : ExtractOutcome :=
  if h : 12 ≤ rest.length then
    let len := readUint32BE rest 0
    let type := (rest.drop 4).take 4
    if rest.length < 12 + len then .notFound
    else
      let chunkData := (rest.drop 8).take len
      let matched : Option ExtractOutcome :=
        if type = tEXtType then
          match parseTextChunkKeyword chunkData with
          | some pr =>
            if pr.1 = charaKw then
              some (match base64DecodeUtf8 pr.2 with
                    | some t => .card .chara t
                    | none => .decodeError)
            else if pr.1 = ccv3Kw then
              some (match base64DecodeUtf8 pr.2 with
                    | some t => .card .ccv3 t
                    | none => .decodeError)
            else none
          | none => none
        else none
      match matched with
      | some r => r
      | none => if type = iendType then .notFound else extractLoop (rest.drop (12 + len))
  else .notFound
termination_by rest.length
decreasing_by simp [List.length_drop]; omega

/-- `extractCardFromPng`: signature check (length and byte-wise equality
with the 8-byte signature), then the chunk scan from offset 8. -/
def extractCardFromPng (png : List Nat) : ExtractOutcome :=
  if 8 ≤ png.length ∧ png.take 8 = pngSignature then extractLoop (png.drop 8)
  else .notFound

/-- `buildTextChunk`: `length || "tEXt" || keyword || 0x00 || payload || crc`
with the CRC freshly computed over type-plus-data. -/
def buildTextChunk (keyword : List Nat) (base64Payload : List Nat) : List Nat :=
  let data := keyword ++ [0] ++ base64Payload
  writeUint32BE data.length ++ tEXtType ++ data ++ writeUint32BE (crc32 (tEXtType ++ data))

/-- The `opts` parameter of `embedCardIntoPng` (both flags default to
`true` via `??`). -/
structure EmbedOpts where
  writeCcv3 : Bool := true
  writeChara : Bool := true
deriving DecidableEq, Repr

/-- Result of `embedCardIntoPng`; the two error constructors stand for the
`throw new Error` sites (invalid signature, chunk overruns buffer). -/
inductive EmbedResult where
  | ok (out : List Nat)
  | errNotAPng
  | errCorruptChunk
deriving DecidableEq, Repr

/-- The rewrite loop of `embedCardIntoPng` on the byte suffix from the
current offset: it returns the concatenation of the output parts pushed
from this offset on.  Each kept chunk is re-serialised with a recomputed
length and CRC; carrier tEXt chunks are skipped; the insertion set is
pushed immediately before the copied IEND chunk. -/
def embedLoop (toInsert : List Nat) (rest : List Nat) : EmbedResult :=
  if h : 12 ≤ rest.length then
    let len := readUint32BE rest 0
    let typeBytes := (rest.drop 4).take 4
    if rest.length < 12 + len then .errCorruptChunk
    else
      let chunkData := (rest.drop 8).take len
      let skip : Bool :=
        typeBytes = tEXtType &&
          match parseTextChunkKeyword chunkData with
          | some pr => pr.1 = charaKw || pr.1 = ccv3Kw
          | none => false
      let copied := writeUint32BE chunkData.length ++ typeBytes ++ chunkData ++
        writeUint32BE (crc32 (typeBytes ++ chunkData))
      let here := (if typeBytes = iendType then toInsert else []) ++
        (if skip then [] else copied)
      if typeBytes = iendType then .ok here
      else
        match embedLoop toInsert (rest.drop (12 + len)) with
        | .ok tail => .ok (here ++ tail)
        | e => e
  else .ok []
termination_by rest.length
decreasing_by simp [List.length_drop]; omega

/-- `embedCardIntoPng`: signature check (hard failure), base64-encode the
card text, build the insertion set (chara first, then ccv3, as requested
by the flags), rewrite the chunk stream. -/
def embedCardIntoPng (png : List Nat) (cardJsonText : List Nat)
    (opts : EmbedOpts) : EmbedResult :=
  if 8 ≤ png.length ∧ png.take 8 = pngSignature then
    let b64 := base64EncodeUtf8 cardJsonText
    let toInsert :=
      (if opts.writeChara then buildTextChunk charaKw b64 else []) ++
        (if opts.writeCcv3 then buildTextChunk ccv3Kw b64 else [])
    match embedLoop toInsert (png.drop 8) with
    | .ok tail => .ok (pngSignature ++ tail)
    | e => e
  else .errNotAPng

/-! ## Chunk-level view of the byte stream

The two loops above walk the same `length | type | payload | crc` chunk
grammar.  `parseChunksL` reifies that walk into a list of `Chunk` records
plus how the walk ended, so that the behaviour of both loops can be
stated and proved once, at the chunk level. -/

/-- One chunk as laid out in the stream: 4-byte type tag, payload bytes,
and the 4 stored CRC bytes. -/
structure Chunk where
  type : List Nat
  data : List Nat
  crc : List Nat
deriving DecidableEq, Repr

/-- Serialise a chunk back to bytes:
big-endian length, type, payload, stored CRC. -/
def Chunk.serialize (c : Chunk) : List Nat :=
  writeUint32BE c.data.length ++ c.type ++ c.data ++ c.crc

/-- Shape well-formedness of a chunk record: 4-byte type and CRC fields,
and a payload length representable in the 32-bit length field. -/
def Chunk.shapeWf (c : Chunk) : Prop :=
  c.type.length = 4 ∧ c.crc.length = 4 ∧ c.data.length < 2 ^ 32

instance (c : Chunk) : Decidable c.shapeWf :=
  inferInstanceAs (Decidable (c.type.length = 4 ∧ c.crc.length = 4 ∧ c.data.length < 2 ^ 32))

/-- Serialise a list of chunks. -/
def serializeChunks : List Chunk → List Nat
  | [] => []
  | c :: cs => c.serialize ++ serializeChunks cs

/-- How a chunk walk ended: at an IEND chunk, at a trailer of fewer than
12 bytes, or at a chunk whose declared span overruns the buffer. -/
inductive WalkEnd where
  | iend
  | trailer
  | overrun
deriving DecidableEq, Repr

/-- The chunk walk shared by both loops, reified: the chunks read before
the walk ended, and the way it ended. -/
def parseChunksL (rest : List Nat) : List Chunk × WalkEnd :=
  if h : 12 ≤ rest.length then
    let len := readUint32BE rest 0
    if rest.length < 12 + len then ([], .overrun)
    else
      let c : Chunk := ⟨(rest.drop 4).take 4, (rest.drop 8).take len, (rest.drop (8 + len)).take 4⟩
      if c.type = iendType then ([c], .iend)
      else
        let pr := parseChunksL (rest.drop (12 + len))
        (c :: pr.1, pr.2)
  else ([], .trailer)
termination_by rest.length
decreasing_by simp [List.length_drop]; omega

/-- A carrier chunk: type `"tEXt"` whose payload parses to keyword
`"chara"` or `"ccv3"` — exactly the condition tested by the skip logic in
`embedCardIntoPng` and the match logic in `extractCardFromPng`. -/
def Chunk.isCardText (c : Chunk) : Bool :=
  c.type = tEXtType &&
    match parseTextChunkKeyword c.data with
    | some pr => pr.1 = charaKw || pr.1 = ccv3Kw
    | none => false

/-- The chunks `embedCardIntoPng` copies through (non-carrier chunks). -/
def keepChunk (c : Chunk) : Bool := !c.isCardText

/-- A chunk as re-serialised by the embed loop: same type and payload,
CRC freshly recomputed over type-plus-payload. -/
def Chunk.recompute (c : Chunk) : Chunk :=
  ⟨c.type, c.data, writeUint32BE (crc32 (c.type ++ c.data))⟩

/-- What `extractCardFromPng` yields upon matching a carrier chunk. -/
def Chunk.decodeOutcome (c : Chunk) : ExtractOutcome :=
  match parseTextChunkKeyword c.data with
  | some pr =>
    if pr.1 = charaKw then
      match base64DecodeUtf8 pr.2 with
      | some t => .card .chara t
      | none => .decodeError
    else if pr.1 = ccv3Kw then
      match base64DecodeUtf8 pr.2 with
      | some t => .card .ccv3 t
      | none => .decodeError
    else .notFound
  | none => .notFound

/-- The extract scan at the chunk level: the first carrier chunk decides
the outcome; an IEND chunk or the end of the walk yields not-found. -/
def firstCard : List Chunk → ExtractOutcome
  | [] => .notFound
  | c :: cs =>
    if c.isCardText then c.decodeOutcome
    else if c.type = iendType then .notFound
    else firstCard cs

/-- The tEXt chunk `buildTextChunk` constructs, as a record. -/
def textChunkOf (keyword : List Nat) (base64Payload : List Nat) : Chunk :=
  ⟨tEXtType, keyword ++ [0] ++ base64Payload,
    writeUint32BE (crc32 (tEXtType ++ (keyword ++ [0] ++ base64Payload)))⟩

/-- The insertion set of `embedCardIntoPng`, chunk level: chara first,
then ccv3, as requested by the flags. -/
def insertChunks (s : List Nat) (opts : EmbedOpts) : List Chunk :=
  (if opts.writeChara then [textChunkOf charaKw (base64EncodeUtf8 s)] else []) ++
    (if opts.writeCcv3 then [textChunkOf ccv3Kw (base64EncodeUtf8 s)] else [])

/-- Number of tEXt chunks in a chunk list whose parsed keyword is `kw`. -/
def countCarrier (kw : List Nat) (cs : List Chunk) : Nat :=
  (cs.filter fun c =>
    c.type = tEXtType &&
      match parseTextChunkKeyword c.data with
      | some pr => pr.1 = kw
      | none => false).length

/-- The bytes the embed loop emits, as a function of the walked chunks:
kept chunks are re-serialised with fresh CRC, carrier chunks vanish, and
the insertion set lands right before the (re-serialised) IEND chunk. -/
def embedOut (toInsert : List Nat) : List Chunk → List Nat
  | [] => []
  | c :: cs =>
    if c.type = iendType then
      toInsert ++ (if c.isCardText then [] else c.recompute.serialize)
    else
      (if c.isCardText then [] else c.recompute.serialize) ++ embedOut toInsert cs

/-- The buffer produced by embedding the empty payload into the one-chunk
PNG whose IEND chunk carries an incorrect (all-zero) CRC field. -/
def embedBadIendOut : List Nat :=
  [137, 80, 78, 71, 13, 10, 26, 10,
   0, 0, 0, 6, 116, 69, 88, 116, 99, 104, 97, 114, 97, 0, 153, 226, 32, 81,
   0, 0, 0, 5, 116, 69, 88, 116, 99, 99, 118, 51, 0, 249, 164, 134, 91,
   0, 0, 0, 0, 73, 69, 78, 68, 174, 66, 96, 130]

/-! ## Byte-level helper lemmas -/

theorem writeUint32BE_length (v : Nat) : (writeUint32BE v).length = 4 := rfl

theorem writeUint32BE_bytes (v : Nat) : ByteList (writeUint32BE v) := by
  intro b hb
  simp [writeUint32BE] at hb
  rcases hb with h | h | h | h <;> omega

theorem readUint32BE_write (v : Nat) (rest : List Nat) (hv : v < 2 ^ 32) :
    readUint32BE (writeUint32BE v ++ rest) 0 = v := by
  simp only [readUint32BE, writeUint32BE, List.cons_append, List.nil_append]
  norm_num [List.getD]
  omega

theorem Chunk.serialize_length (c : Chunk) (hwf : c.shapeWf) :
    c.serialize.length = 12 + c.data.length := by
  obtain ⟨ht, hc, -⟩ := hwf
  simp [Chunk.serialize, writeUint32BE_length, ht, hc]
  omega


theorem serialize_append_eq (c : Chunk) (rest : List Nat) :
    c.serialize ++ rest =
      writeUint32BE c.data.length ++ (c.type ++ (c.data ++ (c.crc ++ rest))) := by
  simp [Chunk.serialize]

theorem ser_read (c : Chunk) (rest : List Nat) (hwf : c.shapeWf) :
    readUint32BE (c.serialize ++ rest) 0 = c.data.length := by
  rw [serialize_append_eq]
  exact readUint32BE_write _ _ hwf.2.2

theorem ser_type (c : Chunk) (rest : List Nat) (hwf : c.shapeWf) :
    ((c.serialize ++ rest).drop 4).take 4 = c.type := by
  rw [serialize_append_eq, List.drop_left' (writeUint32BE_length _), List.take_left' hwf.1]

theorem ser_data (c : Chunk) (rest : List Nat) (hwf : c.shapeWf) :
    ((c.serialize ++ rest).drop 8).take c.data.length = c.data := by
  have he : c.serialize ++ rest =
      (writeUint32BE c.data.length ++ c.type) ++ (c.data ++ (c.crc ++ rest)) := by
    simp [Chunk.serialize]
  rw [he, List.drop_left' (by simp [writeUint32BE_length, hwf.1]), List.take_left' rfl]

theorem ser_crc (c : Chunk) (rest : List Nat) (hwf : c.shapeWf) :
    ((c.serialize ++ rest).drop (8 + c.data.length)).take 4 = c.crc := by
  have he : c.serialize ++ rest =
      ((writeUint32BE c.data.length ++ c.type) ++ c.data) ++ (c.crc ++ rest) := by
    simp [Chunk.serialize]
  rw [he, List.drop_left' (by simp [writeUint32BE_length, hwf.1]; omega),
    List.take_left' hwf.2.1]

theorem ser_next (c : Chunk) (rest : List Nat) (hwf : c.shapeWf) :
    (c.serialize ++ rest).drop (12 + c.data.length) = rest := by
  have he : c.serialize ++ rest =
      (((writeUint32BE c.data.length ++ c.type) ++ c.data) ++ c.crc) ++ rest := by
    simp [Chunk.serialize]
  rw [he, List.drop_left' (by simp [writeUint32BE_length, hwf.1, hwf.2.1]; omega)]

theorem parseChunksL_cons (c : Chunk) (rest : List Nat) (hwf : c.shapeWf) :
    parseChunksL (c.serialize ++ rest) =
      if c.type = iendType then ([c], .iend)
      else (c :: (parseChunksL rest).1, (parseChunksL rest).2) := by
  have hlen : (c.serialize ++ rest).length = 12 + c.data.length + rest.length := by
    simp [Chunk.serialize_length c hwf]
  rw [parseChunksL]
  rw [dif_pos (by omega)]
  simp only [ser_read c rest hwf]
  rw [if_neg (by omega)]
  simp only [ser_type c rest hwf, ser_data c rest hwf, ser_crc c rest hwf, ser_next c rest hwf]
theorem ccv3_ne_chara : ¬ (ccv3Kw = charaKw) := by decide

theorem iend_ne_tEXt : ¬ (iendType = tEXtType) := by decide

theorem matched_eq (type data crcb : List Nat) :
    (if type = tEXtType then
        match parseTextChunkKeyword data with
        | some pr =>
          if pr.1 = charaKw then
            some (match base64DecodeUtf8 pr.2 with
                  | some t => ExtractOutcome.card .chara t
                  | none => ExtractOutcome.decodeError)
          else if pr.1 = ccv3Kw then
            some (match base64DecodeUtf8 pr.2 with
                  | some t => ExtractOutcome.card .ccv3 t
                  | none => ExtractOutcome.decodeError)
          else none
        | none => none
      else none) =
      if (Chunk.mk type data crcb).isCardText then some ((Chunk.mk type data crcb).decodeOutcome)
      else none := by
  by_cases ht : type = tEXtType
  · cases hp : parseTextChunkKeyword data with
    | none => simp [Chunk.isCardText, Chunk.decodeOutcome, ht, hp]
    | some pr =>
      by_cases h1 : pr.1 = charaKw
      · simp only [Chunk.isCardText, Chunk.decodeOutcome, ht, hp, h1, ccv3_ne_chara]
        cases base64DecodeUtf8 pr.2 <;> simp [ccv3_ne_chara]
      · by_cases h2 : pr.1 = ccv3Kw
        · simp only [Chunk.isCardText, Chunk.decodeOutcome, ht, hp, h1, h2]
          cases base64DecodeUtf8 pr.2 <;> simp [h1, h2, ccv3_ne_chara]
        · simp [Chunk.isCardText, Chunk.decodeOutcome, ht, hp, h1, h2]
  · simp [Chunk.isCardText, ht]

theorem Chunk.isCardText_tEXt {c : Chunk} (h : c.isCardText = true) : c.type = tEXtType := by
  simp only [Chunk.isCardText, Bool.and_eq_true, decide_eq_true_eq] at h
  exact h.1

theorem extractLoop_cons (c : Chunk) (rest : List Nat) (hwf : c.shapeWf) :
    extractLoop (c.serialize ++ rest) =
      if c.isCardText then c.decodeOutcome
      else if c.type = iendType then .notFound
      else extractLoop rest := by
  have hlen : (c.serialize ++ rest).length = 12 + c.data.length + rest.length := by
    simp [Chunk.serialize_length c hwf]
  rw [extractLoop]
  rw [dif_pos (by omega)]
  simp only [ser_read c rest hwf]
  rw [if_neg (by omega)]
  simp only [ser_type c rest hwf, ser_data c rest hwf, ser_next c rest hwf]
  rw [matched_eq c.type c.data c.crc]
  by_cases hc : c.isCardText <;> simp [hc]

theorem embedLoop_cons (t : List Nat) (c : Chunk) (rest : List Nat) (hwf : c.shapeWf) :
    embedLoop t (c.serialize ++ rest) =
      if c.type = iendType then
        .ok (t ++ c.recompute.serialize)
      else
        match embedLoop t rest with
        | .ok tail => .ok ((if c.isCardText then [] else c.recompute.serialize) ++ tail)
        | e => e := by
  have hlen : (c.serialize ++ rest).length = 12 + c.data.length + rest.length := by
    simp [Chunk.serialize_length c hwf]
  rw [embedLoop]
  rw [dif_pos (by omega)]
  simp only [ser_read c rest hwf]
  rw [if_neg (by omega)]
  simp only [ser_type c rest hwf, ser_data c rest hwf, ser_next c rest hwf]
  have hskip : (decide (c.type = tEXtType) &&
      match parseTextChunkKeyword c.data with
      | some pr => decide (pr.1 = charaKw) || decide (pr.1 = ccv3Kw)
      | none => false) = c.isCardText := by
    simp [Chunk.isCardText]
  have hcopied : writeUint32BE c.data.length ++ c.type ++ c.data ++
      writeUint32BE (crc32 (c.type ++ c.data)) = c.recompute.serialize := by
    simp [Chunk.recompute, Chunk.serialize]
  rw [hskip, hcopied]
  by_cases hi : c.type = iendType
  · have hc : c.isCardText = false := by
      cases hcc : c.isCardText with
      | false => rfl
      | true => exact absurd (hi ▸ Chunk.isCardText_tEXt hcc) iend_ne_tEXt
    simp [hi, hc]
  · by_cases hc : c.isCardText <;> simp [hi, hc]
theorem extractLoop_eq_firstCard (rest : List Nat) :
    extractLoop rest = firstCard (parseChunksL rest).1 := by
  rw [extractLoop, parseChunksL]
  by_cases h : 12 ≤ rest.length
  · rw [dif_pos h, dif_pos h]
    simp only []
    by_cases hov : rest.length < 12 + readUint32BE rest 0
    · rw [if_pos hov, if_pos hov]
      rfl
    · rw [if_neg hov, if_neg hov]
      rw [matched_eq ((rest.drop 4).take 4) ((rest.drop 8).take (readUint32BE rest 0))
        ((rest.drop (8 + readUint32BE rest 0)).take 4)]
      set c : Chunk := ⟨(rest.drop 4).take 4, (rest.drop 8).take (readUint32BE rest 0),
        (rest.drop (8 + readUint32BE rest 0)).take 4⟩ with hcdef
      by_cases hcard : c.isCardText
      · have hnotiend : ¬ ((rest.drop 4).take 4 = iendType) := fun hh =>
          iend_ne_tEXt ((show c.type = iendType from hh) ▸ Chunk.isCardText_tEXt hcard)
        rw [if_pos hcard]
        simp [firstCard, hcard, hnotiend]
      · rw [if_neg hcard]
        by_cases hiend : ((rest.drop 4).take 4 = iendType)
        · simp [firstCard, hiend, hcard]
        · rw [extractLoop_eq_firstCard (rest.drop (12 + readUint32BE rest 0))]
          simp [firstCard, hiend, hcard]
  · rw [dif_neg h, dif_neg h]
    rfl
termination_by rest.length
decreasing_by simp [List.length_drop]; omega

theorem embedLoop_eq_embedOut (t : List Nat) (rest : List Nat) :
    embedLoop t rest =
      (match parseChunksL rest with
       | (_, .overrun) => .errCorruptChunk
       | (cs, _) => .ok (embedOut t cs)) := by
  rw [embedLoop, parseChunksL]
  by_cases h : 12 ≤ rest.length
  · rw [dif_pos h, dif_pos h]
    simp only []
    by_cases hov : rest.length < 12 + readUint32BE rest 0
    · rw [if_pos hov, if_pos hov]
    · rw [if_neg hov, if_neg hov]
      set c : Chunk := ⟨(rest.drop 4).take 4, (rest.drop 8).take (readUint32BE rest 0),
        (rest.drop (8 + readUint32BE rest 0)).take 4⟩ with hcdef
      have hskip : (decide ((rest.drop 4).take 4 = tEXtType) &&
          match parseTextChunkKeyword ((rest.drop 8).take (readUint32BE rest 0)) with
          | some pr => decide (pr.1 = charaKw) || decide (pr.1 = ccv3Kw)
          | none => false) = c.isCardText := by
        simp [Chunk.isCardText, hcdef]
      have hcopied : writeUint32BE ((rest.drop 8).take (readUint32BE rest 0)).length ++
          (rest.drop 4).take 4 ++ (rest.drop 8).take (readUint32BE rest 0) ++
          writeUint32BE (crc32 ((rest.drop 4).take 4 ++ (rest.drop 8).take (readUint32BE rest 0))) =
          c.recompute.serialize := by
        simp [Chunk.recompute, Chunk.serialize, hcdef]
      rw [hskip, hcopied]
      by_cases hiend : ((rest.drop 4).take 4 = iendType)
      · have hcard : c.isCardText = false := by
          cases hcc : c.isCardText with
          | false => rfl
          | true =>
            exact absurd ((show c.type = iendType from hiend) ▸ Chunk.isCardText_tEXt hcc)
              iend_ne_tEXt
        simp [embedOut, hiend, hcard]
      · rw [embedLoop_eq_embedOut t (rest.drop (12 + readUint32BE rest 0))]
        rcases hp : parseChunksL (rest.drop (12 + readUint32BE rest 0)) with ⟨cs, e⟩
        cases e <;> simp [embedOut, hiend, hp]
  · rw [dif_neg h, dif_neg h]
    rfl
termination_by rest.length
decreasing_by simp [List.length_drop]; omega
theorem parseChunksL_nil : parseChunksL [] = ([], .trailer) := by
  rw [parseChunksL]
  rfl

theorem serializeChunks_append (xs ys : List Chunk) :
    serializeChunks (xs ++ ys) = serializeChunks xs ++ serializeChunks ys := by
  induction xs with
  | nil => simp [serializeChunks]
  | cons c cs ih => simp [serializeChunks, ih]

theorem parseChunksL_print (cs : List Chunk) (tail : List Nat)
    (h : ∀ c ∈ cs, c.shapeWf ∧ ¬(c.type = iendType)) :
    parseChunksL (serializeChunks cs ++ tail) =
      (cs ++ (parseChunksL tail).1, (parseChunksL tail).2) := by
  induction cs with
  | nil => simp [serializeChunks]
  | cons c cs ih =>
    have hc := h c (by simp)
    rw [serializeChunks, List.append_assoc, parseChunksL_cons c _ hc.1, if_neg hc.2]
    simp [ih fun d hd => h d (by simp [hd])]

theorem parseChunksL_print_iend (cs : List Chunk) (i : Chunk) (tail : List Nat)
    (h : ∀ c ∈ cs, c.shapeWf ∧ ¬(c.type = iendType)) (hi : i.shapeWf)
    (hit : i.type = iendType) :
    parseChunksL (serializeChunks cs ++ (i.serialize ++ tail)) = (cs ++ [i], .iend) := by
  rw [parseChunksL_print cs _ h, parseChunksL_cons i tail hi, if_pos hit]

theorem parseChunksL_print_noIend (cs : List Chunk)
    (h : ∀ c ∈ cs, c.shapeWf ∧ ¬(c.type = iendType)) :
    parseChunksL (serializeChunks cs) = (cs, .trailer) := by
  have hp := parseChunksL_print cs [] h
  simpa [parseChunksL_nil] using hp

theorem firstCard_append_skip (cs ds : List Chunk)
    (h : ∀ c ∈ cs, c.isCardText = false ∧ ¬(c.type = iendType)) :
    firstCard (cs ++ ds) = firstCard ds := by
  induction cs with
  | nil => rfl
  | cons c cs ih =>
    have hc := h c (by simp)
    simp only [List.cons_append, firstCard, hc.1, hc.2, Bool.false_eq_true, if_false]
    exact ih fun d hd => h d (by simp [hd])

theorem Chunk.recompute_type (c : Chunk) : c.recompute.type = c.type := rfl

theorem Chunk.recompute_data (c : Chunk) : c.recompute.data = c.data := rfl

theorem Chunk.recompute_isCardText (c : Chunk) : c.recompute.isCardText = c.isCardText := rfl

theorem Chunk.recompute_shapeWf (c : Chunk) (h : c.shapeWf) : c.recompute.shapeWf :=
  ⟨h.1, rfl, h.2.2⟩

theorem embedOut_noIend (t : List Nat) (cs : List Chunk)
    (h : ∀ c ∈ cs, ¬(c.type = iendType)) :
    embedOut t cs = serializeChunks ((cs.filter keepChunk).map Chunk.recompute) := by
  induction cs with
  | nil => rfl
  | cons c cs ih =>
    have hc := h c (by simp)
    rw [embedOut, if_neg hc]
    cases hcard : c.isCardText with
    | true =>
      simp only [hcard, if_true, List.nil_append]
      rw [ih fun d hd => h d (by simp [hd])]
      simp [keepChunk, hcard]
    | false =>
      simp only [hcard, Bool.false_eq_true, if_false]
      rw [ih fun d hd => h d (by simp [hd])]
      simp [keepChunk, hcard, serializeChunks]

theorem embedOut_iend (t : List Nat) (pre : List Chunk) (i : Chunk)
    (hpre : ∀ c ∈ pre, ¬(c.type = iendType)) (hi : i.type = iendType) :
    embedOut t (pre ++ [i]) =
      serializeChunks ((pre.filter keepChunk).map Chunk.recompute) ++ t ++
        i.recompute.serialize := by
  induction pre with
  | nil =>
    have hcard : i.isCardText = false := by
      cases hcc : i.isCardText with
      | false => rfl
      | true => exact absurd (hi ▸ Chunk.isCardText_tEXt hcc) iend_ne_tEXt
    simp [embedOut, hi, hcard, serializeChunks]
  | cons c cs ih =>
    have hc := hpre c (by simp)
    rw [List.cons_append, embedOut, if_neg hc]
    rw [ih fun d hd => hpre d (by simp [hd])]
    cases hcard : c.isCardText with
    | true => simp [keepChunk, hcard]
    | false => simp [keepChunk, hcard, serializeChunks]
theorem ByteList.getD_lt {l : List Nat} (hb : ByteList l) (i : Nat) : l.getD i 0 < 256 := by
  cases h : l[i]? with
  | none => simp [List.getD, h]
  | some x =>
    have hm : x ∈ l := by
      have := List.getElem?_eq_some.mp h
      obtain ⟨hlt, hel⟩ := this
      exact hel ▸ List.getElem_mem hlt
    simpa [List.getD, h] using hb x hm

theorem readUint32BE_lt (l : List Nat) (off : Nat) (hb : ByteList l) :
    readUint32BE l off < 2 ^ 32 := by
  have h0 := ByteList.getD_lt hb off
  have h1 := ByteList.getD_lt hb (off + 1)
  have h2 := ByteList.getD_lt hb (off + 2)
  have h3 := ByteList.getD_lt hb (off + 3)
  simp only [readUint32BE]
  omega

theorem ByteList.drop {l : List Nat} (hb : ByteList l) (n : Nat) : ByteList (l.drop n) :=
  fun b hbm => hb b (List.drop_subset n l hbm)

theorem ByteList.take {l : List Nat} (hb : ByteList l) (n : Nat) : ByteList (l.take n) :=
  fun b hbm => hb b (List.take_subset n l hbm)

theorem ByteList.append {l m : List Nat} (hl : ByteList l) (hm : ByteList m) :
    ByteList (l ++ m) := by
  intro b hb
  rcases List.mem_append.mp hb with h | h
  · exact hl b h
  · exact hm b h

theorem parseChunksL_shapeWf (rest : List Nat) (hb : ByteList rest) :
    ∀ c ∈ (parseChunksL rest).1, c.shapeWf := by
  rw [parseChunksL]
  by_cases h : 12 ≤ rest.length
  · rw [dif_pos h]
    simp only []
    by_cases hov : rest.length < 12 + readUint32BE rest 0
    · rw [if_pos hov]
      simp
    · rw [if_neg hov]
      have hwf : (⟨(rest.drop 4).take 4, (rest.drop 8).take (readUint32BE rest 0),
          (rest.drop (8 + readUint32BE rest 0)).take 4⟩ : Chunk).shapeWf := by
        refine ⟨?_, ?_, ?_⟩
        · simp only [List.length_take, List.length_drop]
          omega
        · simp only [List.length_take, List.length_drop]
          omega
        · simp only [List.length_take, List.length_drop]
          have := readUint32BE_lt rest 0 hb
          omega
      by_cases hiend : ((rest.drop 4).take 4 = iendType)
      · rw [if_pos hiend]
        simpa using hwf
      · rw [if_neg hiend]
        have ih := parseChunksL_shapeWf (rest.drop (12 + readUint32BE rest 0))
          (ByteList.drop hb _)
        intro c hc
        rcases List.mem_cons.mp hc with hc | hc
        · exact hc ▸ hwf
        · exact ih c hc
  · rw [dif_neg h]
    simp
termination_by rest.length
decreasing_by simp [List.length_drop]; omega

theorem parseChunksL_iend_struct (rest : List Nat) :
    (parseChunksL rest).2 = .iend →
      ∃ pre i, (parseChunksL rest).1 = pre ++ [i] ∧ i.type = iendType ∧
        ∀ c ∈ pre, ¬(c.type = iendType) := by
  rw [parseChunksL]
  by_cases h : 12 ≤ rest.length
  · rw [dif_pos h]
    simp only []
    by_cases hov : rest.length < 12 + readUint32BE rest 0
    · rw [if_pos hov]
      simp
    · rw [if_neg hov]
      by_cases hiend : ((rest.drop 4).take 4 = iendType)
      · rw [if_pos hiend]
        intro _
        exact ⟨[], ⟨(rest.drop 4).take 4, (rest.drop 8).take (readUint32BE rest 0),
          (rest.drop (8 + readUint32BE rest 0)).take 4⟩, by simp, hiend, by simp⟩
      · rw [if_neg hiend]
        intro he
        have ih := parseChunksL_iend_struct (rest.drop (12 + readUint32BE rest 0)) (by simpa using he)
        obtain ⟨pre, i, h1, h2, h3⟩ := ih
        refine ⟨⟨(rest.drop 4).take 4, (rest.drop 8).take (readUint32BE rest 0),
          (rest.drop (8 + readUint32BE rest 0)).take 4⟩ :: pre, i, by simp [h1], h2, ?_⟩
        intro c hc
        rcases List.mem_cons.mp hc with hc | hc
        · exact hc ▸ hiend
        · exact h3 c hc
  · rw [dif_neg h]
    simp
termination_by rest.length
decreasing_by simp [List.length_drop]; omega

theorem parseChunksL_noIend (rest : List Nat) :
    (parseChunksL rest).2 ≠ .iend →
      ∀ c ∈ (parseChunksL rest).1, ¬(c.type = iendType) := by
  rw [parseChunksL]
  by_cases h : 12 ≤ rest.length
  · rw [dif_pos h]
    simp only []
    by_cases hov : rest.length < 12 + readUint32BE rest 0
    · rw [if_pos hov]
      simp
    · rw [if_neg hov]
      by_cases hiend : ((rest.drop 4).take 4 = iendType)
      · rw [if_pos hiend]
        simp
      · rw [if_neg hiend]
        intro he c hc
        have ih := parseChunksL_noIend (rest.drop (12 + readUint32BE rest 0)) (by simpa using he)
        rcases List.mem_cons.mp hc with hc | hc
        · exact hc ▸ hiend
        · exact ih c hc
  · rw [dif_neg h]
    simp
termination_by rest.length
decreasing_by simp [List.length_drop]; omega
theorem b64Val_enc : ∀ v < 64, b64Val (b64Enc v) = some v := by decide

theorem b64Enc_spec (v : Nat) :
    isB64Ws (b64Enc v) = false ∧ b64Enc v ≠ 61 ∧ b64Enc v < 256 := by
  have halt : b64Enc v = 0 ∨ b64Enc v ∈ b64Alphabet := by
    by_cases h : v < b64Alphabet.length
    · right
      simp only [b64Enc, List.getD_eq_getElem?_getD, List.getElem?_eq_getElem h,
        Option.getD_some]
      exact List.getElem_mem h
    · left
      simp [b64Enc, List.getD_eq_getElem?_getD, List.getElem?_eq_none (Nat.le_of_not_lt h)]
  have hall : ∀ x ∈ b64Alphabet, isB64Ws x = false ∧ x ≠ 61 ∧ x < 256 := by decide
  rcases halt with h | h
  · rw [h]
    exact ⟨by decide, by decide, by decide⟩
  · exact hall _ h

theorem btoa_length_mod (s : List Nat) : (btoa s).length % 4 = 0 := by
  induction s using btoa.induct <;> simp [btoa, *]
  omega

theorem btoa_length_pos (a : Nat) (s : List Nat) : 4 ≤ (btoa (a :: s)).length := by
  match s with
  | [] => simp [btoa]
  | [b] => simp [btoa]
  | b :: c :: rest => simp [btoa]

theorem btoa_ws_false (s : List Nat) : ∀ x ∈ btoa s, (!isB64Ws x) = true := by
  induction s using btoa.induct with
  | case1 => simp [btoa]
  | case2 a =>
    intro x hx
    simp only [btoa, List.mem_cons, List.not_mem_nil, or_false] at hx
    rcases hx with h | h | h | h <;> simp [h, (b64Enc_spec _).1] <;> rfl
  | case3 a b =>
    intro x hx
    simp only [btoa, List.mem_cons, List.not_mem_nil, or_false] at hx
    rcases hx with h | h | h | h <;> simp [h, (b64Enc_spec _).1] <;> rfl
  | case4 a b c rest ih =>
    intro x hx
    simp only [btoa, List.mem_cons] at hx
    rcases hx with h | h | h | h | h
    · simp [h, (b64Enc_spec _).1]
    · simp [h, (b64Enc_spec _).1]
    · simp [h, (b64Enc_spec _).1]
    · simp [h, (b64Enc_spec _).1]
    · exact ih x h

theorem btoa_filter_ws (s : List Nat) :
    (btoa s).filter (fun c => !isB64Ws c) = btoa s := by
  rw [List.filter_eq_self]
  exact btoa_ws_false s
theorem dropOnePad_length (l : List Nat) : l.length - 1 ≤ (dropOnePad l).length := by
  rw [dropOnePad]
  split <;> simp

theorem dropOnePad_append (l t : List Nat) (ht : t ≠ []) :
    dropOnePad (l ++ t) = l ++ dropOnePad t := by
  rw [dropOnePad, dropOnePad, List.getLast?_append_of_ne_nil l ht]
  split
  · rw [List.dropLast_append_of_ne_nil l ht]
  · rfl

theorem dropOnePad_noPad (l : List Nat) (h : ¬ (l.getLast? = some 61)) :
    dropOnePad l = l := by
  rw [dropOnePad, if_neg h]

theorem b64Vals_append (l m : List Nat) (a b : List Nat)
    (hl : b64Vals l = some a) (hm : b64Vals m = some b) :
    b64Vals (l ++ m) = some (a ++ b) := by
  induction l generalizing a with
  | nil => simp [b64Vals] at hl; simp [hl, hm]
  | cons c cs ih =>
    rw [List.cons_append, b64Vals]
    rw [b64Vals] at hl
    cases hv : b64Val c with
    | none => rw [hv] at hl; simp at hl
    | some v =>
      rw [hv] at hl
      cases hvs : b64Vals cs with
      | none => rw [hvs] at hl; simp at hl
      | some vs =>
        rw [hvs] at hl
        simp only [Option.some.injEq] at hl
        rw [ih vs hvs]
        simp [← hl]

theorem decode_b1 (a : Nat) (ha : a < 256) : a / 4 * 4 + a % 4 * 16 / 16 = a := by omega

theorem decode_b2 (a b : Nat) (ha : a < 256) (hb : b < 256) :
    a / 4 * 4 + (a % 4 * 16 + b / 16) / 16 = a := by omega

theorem decode_b3 (a b : Nat) (ha : a < 256) (hb : b < 256) :
    (a % 4 * 16 + b / 16) % 16 * 16 + b % 16 * 4 / 4 = b := by omega

theorem decode_b4 (a b c : Nat) (ha : a < 256) (hb : b < 256) (hc : c < 256) :
    (a % 4 * 16 + b / 16) % 16 * 16 + (b % 16 * 4 + c / 64) / 4 = b := by omega

theorem decode_b5 (b c : Nat) (hb : b < 256) (hc : c < 256) :
    (b % 16 * 4 + c / 64) % 4 * 64 + c % 64 = c := by omega
theorem stripPad_two_pads (x y : Nat) : stripPad [x, y, 61, 61] = [x, y] := by
  simp [stripPad, dropOnePad, List.getLast?]

theorem stripPad_one_pad (x y z : Nat) (hz : z ≠ 61) : stripPad [x, y, z, 61] = [x, y, z] := by
  simp [stripPad, dropOnePad, List.getLast?, hz]

theorem stripPad_no_pad (l : List Nat) (h4 : l.length % 4 = 0)
    (hl : ¬ (l.getLast? = some 61)) : stripPad l = l := by
  rw [stripPad, if_pos h4, dropOnePad_noPad _ hl, dropOnePad_noPad _ hl]

theorem atob_btoa (s : List Nat) (hs : ByteList s) : atob (btoa s) = some s := by
  induction s using btoa.induct with
  | case1 => rfl
  | case2 a =>
    have ha : a < 256 := hs a (by simp)
    have h1 := b64Val_enc (a / 4) (by omega)
    have h2 := b64Val_enc (a % 4 * 16) (by omega)
    simp only [atob]
    rw [btoa_filter_ws]
    rw [show btoa [a] = [b64Enc (a / 4), b64Enc (a % 4 * 16), 61, 61] from rfl,
      stripPad_two_pads]
    simp [b64Vals, h1, h2, decodeB64Vals]
    omega
  | case3 a b =>
    have ha : a < 256 := hs a (by simp)
    have hb : b < 256 := hs b (by simp)
    have h1 := b64Val_enc (a / 4) (by omega)
    have h2 := b64Val_enc (a % 4 * 16 + b / 16) (by omega)
    have h3 := b64Val_enc (b % 16 * 4) (by omega)
    simp only [atob]
    rw [btoa_filter_ws]
    rw [show btoa [a, b] =
      [b64Enc (a / 4), b64Enc (a % 4 * 16 + b / 16), b64Enc (b % 16 * 4), 61] from rfl,
      stripPad_one_pad _ _ _ (b64Enc_spec _).2.1]
    simp [b64Vals, h1, h2, h3, decodeB64Vals]
    constructor <;> omega
  | case4 a b c rest ih =>
    have ha : a < 256 := hs a (by simp)
    have hb : b < 256 := hs b (by simp)
    have hc : c < 256 := hs c (by simp)
    have h1 := b64Val_enc (a / 4) (by omega)
    have h2 := b64Val_enc (a % 4 * 16 + b / 16) (by omega)
    have h3 := b64Val_enc (b % 16 * 4 + c / 64) (by omega)
    have h4 := b64Val_enc (c % 64) (by omega)
    have hchunk : btoa (a :: b :: c :: rest) =
        [b64Enc (a / 4), b64Enc (a % 4 * 16 + b / 16), b64Enc (b % 16 * 4 + c / 64),
          b64Enc (c % 64)] ++ btoa rest := by
      cases rest <;> rfl
    simp only [atob]
    rw [btoa_filter_ws, hchunk]
    cases hrest : rest with
    | nil =>
      rw [show (btoa ([] : List Nat)) = [] from rfl, List.append_nil]
      rw [stripPad_no_pad _ (by simp) (by
        simp only [List.getLast?, Option.some.injEq]
        exact (b64Enc_spec (c % 64)).2.1)]
      simp [b64Vals, h1, h2, h3, h4, decodeB64Vals]
      refine ⟨by omega, by omega, by omega⟩
    | cons r rs =>
      have hrne : btoa (r :: rs) ≠ [] := by
        have := btoa_length_pos r rs
        intro hh
        rw [hh] at this
        simp at this
      have hlen0 : (btoa (r :: rs)).length % 4 = 0 := btoa_length_mod _
      have hstrip : stripPad ([b64Enc (a / 4), b64Enc (a % 4 * 16 + b / 16),
          b64Enc (b % 16 * 4 + c / 64), b64Enc (c % 64)] ++ btoa (r :: rs)) =
          [b64Enc (a / 4), b64Enc (a % 4 * 16 + b / 16), b64Enc (b % 16 * 4 + c / 64),
            b64Enc (c % 64)] ++ dropOnePad (dropOnePad (btoa (r :: rs))) := by
        rw [stripPad, if_pos (by simp [hlen0]; omega)]
        rw [dropOnePad_append _ _ hrne]
        have hne2 : dropOnePad (btoa (r :: rs)) ≠ [] := by
          have hl1 := dropOnePad_length (btoa (r :: rs))
          have hl2 := btoa_length_pos r rs
          intro hh
          rw [hh] at hl1
          simp at hl1
          omega
        rw [dropOnePad_append _ _ hne2]
      rw [hstrip]
      rw [hrest] at ih
      have ih2 := ih (fun x hx => hs x (by simp [hrest, hx]))
      simp only [atob] at ih2
      rw [btoa_filter_ws] at ih2
      rw [show stripPad (btoa (r :: rs)) =
          dropOnePad (dropOnePad (btoa (r :: rs))) from by rw [stripPad, if_pos hlen0]] at ih2
      set t2 := dropOnePad (dropOnePad (btoa (r :: rs))) with ht2
      by_cases hmod : t2.length % 4 = 1
      · rw [if_pos hmod] at ih2
        exact absurd ih2 (by simp)
      · rw [if_neg hmod] at ih2
        obtain ⟨vals, hvals, hdec⟩ := Option.map_eq_some'.mp ih2
        have hventry : b64Vals ([b64Enc (a / 4), b64Enc (a % 4 * 16 + b / 16),
            b64Enc (b % 16 * 4 + c / 64), b64Enc (c % 64)] ++ t2) =
            some ([a / 4, a % 4 * 16 + b / 16, b % 16 * 4 + c / 64, c % 64] ++ vals) := by
          refine b64Vals_append _ _ _ _ ?_ hvals
          simp [b64Vals, h1, h2, h3, h4]
        rw [if_neg (by simp; omega)]
        rw [hventry]
        have hfull : decodeB64Vals ((a / 4) :: (a % 4 * 16 + b / 16) ::
            (b % 16 * 4 + c / 64) :: (c % 64) :: vals) = a :: b :: c :: (r :: rs) := by
          rw [show decodeB64Vals ((a / 4) :: (a % 4 * 16 + b / 16) ::
            (b % 16 * 4 + c / 64) :: (c % 64) :: vals) =
            (a / 4 * 4 + (a % 4 * 16 + b / 16) / 16) ::
              ((a % 4 * 16 + b / 16) % 16 * 16 + (b % 16 * 4 + c / 64) / 4) ::
              ((b % 16 * 4 + c / 64) % 4 * 64 + c % 64) :: decodeB64Vals vals from rfl]
          rw [hdec, decode_b2 a b ha hb, decode_b4 a b c ha hb hc, decode_b5 b c hb hc]
        simp [hfull]
theorem bit_self (n : Nat) : Nat.bit (decide (n % 2 = 1)) (n / 2) = n := by
  rw [Nat.bit_val]
  rcases Nat.mod_two_eq_zero_or_one n with h | h <;> simp [h] <;> omega

theorem xor_div_two (a b : Nat) : (a ^^^ b) / 2 = a / 2 ^^^ b / 2 := by
  conv_lhs => rw [← bit_self a, ← bit_self b]
  rw [Nat.xor_bit, Nat.bit_div_two]

theorem xor_mod_two (a b : Nat) : (a ^^^ b) % 2 = (a % 2 + b % 2) % 2 := by
  rw [Nat.xor_mod_two_eq]
  omega

theorem xor_left_swap (a b c : Nat) : a ^^^ (b ^^^ c) = b ^^^ (a ^^^ c) := by
  rw [← Nat.xor_assoc, Nat.xor_comm a b, Nat.xor_assoc]

theorem refStep_reshape (c : Nat) :
    crc32RefStep c = (if c % 2 = 1 then 0xedb88320 else 0) ^^^ c / 2 := by
  rw [crc32RefStep]
  rcases Nat.mod_two_eq_zero_or_one c with h | h
  · rw [if_neg (by omega), if_neg (by omega)]
    simp
  · rw [if_pos h, if_pos h, Nat.xor_comm]

theorem refStep_linear (a b : Nat) :
    crc32RefStep (a ^^^ b) = crc32RefStep a ^^^ crc32RefStep b := by
  rw [refStep_reshape, refStep_reshape, refStep_reshape]
  have hx := xor_mod_two a b
  have hd := xor_div_two a b
  rw [hd]
  rcases Nat.mod_two_eq_zero_or_one a with ha | ha <;>
    rcases Nat.mod_two_eq_zero_or_one b with hb | hb
  · rw [if_neg (by omega), if_neg (by omega), if_neg (by omega)]
    simp
  · rw [if_pos (by omega), if_neg (by omega), if_pos (by omega)]
    rw [Nat.zero_xor, xor_left_swap (a / 2) 0xedb88320 (b / 2)]
  · rw [if_pos (by omega), if_pos (by omega), if_neg (by omega)]
    rw [Nat.zero_xor, Nat.xor_assoc]
  · rw [if_neg (by omega), if_pos (by omega), if_pos (by omega)]
    rw [Nat.zero_xor, Nat.xor_assoc 0xedb88320 (a / 2)]
    rw [xor_left_swap (a / 2) 0xedb88320 (b / 2)]
    rw [← Nat.xor_assoc 0xedb88320 0xedb88320]
    simp

theorem refStep_iterate_linear (n a b : Nat) :
    crc32RefStep^[n] (a ^^^ b) = crc32RefStep^[n] a ^^^ crc32RefStep^[n] b := by
  induction n generalizing a b with
  | zero => rfl
  | succ k ih =>
    rw [Function.iterate_succ_apply, Function.iterate_succ_apply,
      Function.iterate_succ_apply, refStep_linear, ih]

theorem refStep_iterate_mul_pow (k q : Nat) : crc32RefStep^[k] (q * 2 ^ k) = q := by
  induction k generalizing q with
  | zero => simp
  | succ n ih =>
    rw [Function.iterate_succ_apply]
    have hq2 : q * 2 ^ (n + 1) = q * 2 ^ n * 2 := by ring
    have hstep : crc32RefStep (q * 2 ^ (n + 1)) = q * 2 ^ n := by
      rw [crc32RefStep, if_neg (by rw [hq2]; omega)]
      rw [hq2]
      omega
    rw [hstep, ih]

theorem two_mul_xor (x y r : Nat) (hr : r < 2) :
    (2 * x) ^^^ (2 * y + r) = 2 * (x ^^^ y) + r := by
  interval_cases r
  · have h1 : 2 * x = Nat.bit false x := by simp [Nat.bit_val]
    have h2 : 2 * y + 0 = Nat.bit false y := by simp [Nat.bit_val]
    rw [h1, h2, Nat.xor_bit]
    simp [Nat.bit_val]
  · have h1 : 2 * x = Nat.bit false x := by simp [Nat.bit_val]
    have h2 : 2 * y + 1 = Nat.bit true y := by simp [Nat.bit_val]
    rw [h1, h2, Nat.xor_bit]
    simp [Nat.bit_val]

theorem xor_mul_pow_add (k : Nat) : ∀ a b : Nat, b < 2 ^ k → (a * 2 ^ k) ^^^ b = a * 2 ^ k + b := by
  induction k with
  | zero =>
    intro a b hb
    interval_cases b
    simp
  | succ n ih =>
    intro a b hb
    have hb2 : b / 2 < 2 ^ n := by
      rw [pow_succ] at hb
      omega
    have hsplit : b = 2 * (b / 2) + b % 2 := by omega
    have hmul : a * 2 ^ (n + 1) = 2 * (a * 2 ^ n) := by ring
    rw [hmul]
    conv_lhs => rw [hsplit]
    rw [two_mul_xor _ _ _ (Nat.mod_lt _ (by omega))]
    rw [ih a (b / 2) hb2]
    omega

theorem crcStep_eq_refStep : crcStep = crc32RefStep := by
  funext n
  rw [crcStep, crc32RefStep]
  rcases Nat.mod_two_eq_zero_or_one n with h | h
  · rw [if_neg (by omega), if_neg (by omega)]
  · rw [if_pos h, if_pos h, Nat.xor_comm]

theorem refStep8_eq_table (x : Nat) :
    crc32RefStep^[8] x = crcTableEntry (x % 256) ^^^ x / 256 := by
  have hsplit : x = (x / 256) * 2 ^ 8 ^^^ x % 256 := by
    rw [xor_mul_pow_add 8 (x / 256) (x % 256) (by omega)]
    omega
  conv_lhs => rw [hsplit]
  rw [refStep_iterate_linear, refStep_iterate_mul_pow]
  rw [crcTableEntry, crcStep_eq_refStep, Nat.xor_comm]

theorem xor_div_pow (k a b : Nat) : (a ^^^ b) / 2 ^ k = a / 2 ^ k ^^^ b / 2 ^ k := by
  induction k generalizing a b with
  | zero => simp
  | succ n ih =>
    have h1 : ∀ m : Nat, m / 2 ^ (n + 1) = m / 2 ^ n / 2 := by
      intro m
      rw [Nat.div_div_eq_div_mul, pow_succ]
    rw [h1, h1, h1, ih, xor_div_two]

theorem crcUpdate_eq_refUpdate (c b : Nat) (hb : b < 256) :
    crc32RefUpdate c b = crc32Update c b := by
  rw [crc32RefUpdate, crc32Update, refStep8_eq_table]
  have hdiv : (c ^^^ b) / 256 = c / 256 := by
    have h := xor_div_pow 8 c b
    have hb0 : b / 2 ^ 8 = 0 := Nat.div_eq_of_lt (by norm_num; omega)
    rw [hb0, Nat.xor_zero] at h
    norm_num at h
    exact h
  rw [hdiv]

theorem crc32_eq_ref (bytes : List Nat) (hb : ByteList bytes) :
    crc32 bytes = crc32Ref bytes := by
  rw [crc32, crc32Ref]
  have hfold : ∀ z : Nat, bytes.foldl crc32Update z = bytes.foldl crc32RefUpdate z := by
    induction bytes with
    | nil => intro z; rfl
    | cons x xs ih =>
      intro z
      rw [List.foldl_cons, List.foldl_cons]
      rw [← crcUpdate_eq_refUpdate z x (hb x (by simp))]
      exact ih (fun y hy => hb y (by simp [hy])) _
  rw [hfold]
theorem buildTextChunk_eq (kw b64 : List Nat) :
    buildTextChunk kw b64 = (textChunkOf kw b64).serialize := by
  simp [buildTextChunk, textChunkOf, Chunk.serialize]

theorem findIdx_zero_concat (kw t : List Nat) (h : ∀ x ∈ kw, x ≠ 0) :
    (kw ++ 0 :: t).findIdx? (· == 0) = some kw.length := by
  induction kw with
  | nil => rfl
  | cons x xs ih =>
    have hx : (x == 0) = false := by
      simp only [beq_eq_false_iff_ne, ne_eq]
      exact h x (by simp)
    rw [List.cons_append, List.findIdx?_cons, hx]
    simp [ih fun y hy => h y (by simp [hy])]

theorem parseTextChunkKeyword_cons (kw t : List Nat) (hk : ∀ x ∈ kw, x ≠ 0)
    (hne : kw ≠ []) : parseTextChunkKeyword (kw ++ 0 :: t) = some (kw, t) := by
  rw [parseTextChunkKeyword, findIdx_zero_concat kw t hk]
  show (if kw.length = 0 then none
    else some ((kw ++ 0 :: t).take kw.length, (kw ++ 0 :: t).drop (kw.length + 1))) =
    some (kw, t)
  rw [if_neg (by simpa using hne)]
  have h1 : (kw ++ 0 :: t).take kw.length = kw := by
    rw [show kw ++ 0 :: t = kw ++ ([0] ++ t) from by simp]
    exact List.take_left' rfl
  have h2 : (kw ++ 0 :: t).drop (kw.length + 1) = t := by
    rw [show kw ++ 0 :: t = (kw ++ [0]) ++ t from by simp]
    exact List.drop_left' (by simp)
  rw [h1, h2]

theorem parseTextChunkKeyword_concat (kw t : List Nat) (hk : ∀ x ∈ kw, x ≠ 0)
    (hne : kw ≠ []) : parseTextChunkKeyword (kw ++ [0] ++ t) = some (kw, t) := by
  rw [show kw ++ [0] ++ t = kw ++ 0 :: t from by simp]
  exact parseTextChunkKeyword_cons kw t hk hne

theorem charaKw_nonzero : ∀ x ∈ charaKw, x ≠ 0 := by decide

theorem ccv3Kw_nonzero : ∀ x ∈ ccv3Kw, x ≠ 0 := by decide

theorem textChunkOf_isCardText_chara (b64 : List Nat) :
    (textChunkOf charaKw b64).isCardText = true := by
  simp [Chunk.isCardText, textChunkOf, tEXtType,
    parseTextChunkKeyword_cons charaKw b64 charaKw_nonzero (by decide)]

theorem textChunkOf_isCardText_ccv3 (b64 : List Nat) :
    (textChunkOf ccv3Kw b64).isCardText = true := by
  simp [Chunk.isCardText, textChunkOf, tEXtType,
    parseTextChunkKeyword_cons ccv3Kw b64 ccv3Kw_nonzero (by decide)]

theorem textChunkOf_decodeOutcome_chara (s : List Nat) (hs : ByteList s)
    (hv : utf8Valid s = true) :
    (textChunkOf charaKw (base64EncodeUtf8 s)).decodeOutcome = .card .chara s := by
  rw [Chunk.decodeOutcome]
  rw [show (textChunkOf charaKw (base64EncodeUtf8 s)).data =
    charaKw ++ [0] ++ base64EncodeUtf8 s from rfl]
  rw [parseTextChunkKeyword_concat charaKw _ charaKw_nonzero (by decide)]
  simp only [if_pos rfl]
  rw [base64DecodeUtf8, base64EncodeUtf8, atob_btoa s hs]
  simp [hv]

theorem btoa_length_le (s : List Nat) : (btoa s).length ≤ 2 * s.length + 4 := by
  induction s using btoa.induct with
  | case1 => simp [btoa]
  | case2 a => simp [btoa]
  | case3 a b => simp [btoa]
  | case4 a b c rest ih =>
    have hlen : (btoa (a :: b :: c :: rest)).length = 4 + (btoa rest).length := by
      cases rest <;> simp [btoa] <;> omega
    rw [hlen]
    simp only [List.length_cons]
    omega

theorem textChunkOf_shapeWf (kw s : List Nat) (hkl : kw.length ≤ 8)
    (hs : s.length < 2 ^ 30) : (textChunkOf kw (base64EncodeUtf8 s)).shapeWf := by
  refine ⟨rfl, rfl, ?_⟩
  have hb := btoa_length_le s
  simp only [textChunkOf, base64EncodeUtf8, List.length_append]
  have h30 : (2 : Nat) ^ 30 ≤ 2 ^ 31 := by norm_num
  have : (2 : Nat) * s.length + 4 < 2 ^ 31 + 4 := by omega
  norm_num at *
  omega

theorem serializeChunks_insertChunks (s : List Nat) (opts : EmbedOpts) :
    (if opts.writeChara then buildTextChunk charaKw (base64EncodeUtf8 s) else []) ++
      (if opts.writeCcv3 then buildTextChunk ccv3Kw (base64EncodeUtf8 s) else []) =
      serializeChunks (insertChunks s opts) := by
  rw [insertChunks]
  cases hc : opts.writeChara <;> cases hv : opts.writeCcv3 <;>
    simp [serializeChunks, serializeChunks_append, buildTextChunk_eq]

theorem extract_sig (tail : List Nat) :
    extractCardFromPng (pngSignature ++ tail) = extractLoop tail := by
  have h8 : pngSignature.length = 8 := rfl
  rw [extractCardFromPng,
    if_pos ⟨by simp [pngSignature], List.take_left' h8⟩, List.drop_left' h8]

theorem embed_sig (tail s : List Nat) (opts : EmbedOpts) :
    embedCardIntoPng (pngSignature ++ tail) s opts =
      (match embedLoop (serializeChunks (insertChunks s opts)) tail with
       | .ok outTail => .ok (pngSignature ++ outTail)
       | e => e) := by
  have h8 : pngSignature.length = 8 := rfl
  rw [embedCardIntoPng]
  rw [if_pos ⟨by simp [pngSignature], List.take_left' h8⟩]
  simp only []
  rw [serializeChunks_insertChunks, List.drop_left' h8]
theorem Chunk.recompute_keep (c : Chunk) : keepChunk c.recompute = keepChunk c := rfl

theorem Chunk.recompute_idem (c : Chunk) : c.recompute.recompute = c.recompute := rfl

theorem png_decomp (png : List Nat) (hsig : png.take 8 = pngSignature) :
    png = pngSignature ++ png.drop 8 := by
  conv_lhs => rw [← List.take_append_drop 8 png]
  rw [hsig]

theorem embed_err_overrun (png s : List Nat) (opts : EmbedOpts)
    (hsig : png.take 8 = pngSignature) (hlen : 8 ≤ png.length)
    (hov : (parseChunksL (png.drop 8)).2 = .overrun) :
    embedCardIntoPng png s opts = .errCorruptChunk := by
  conv_lhs => rw [png_decomp png hsig]
  rw [embed_sig, embedLoop_eq_embedOut]
  rcases hp : parseChunksL (png.drop 8) with ⟨cs, e⟩
  rw [hp] at hov
  simp only [] at hov
  subst hov
  rfl

theorem embed_ok_trailer (png s : List Nat) (opts : EmbedOpts)
    (hsig : png.take 8 = pngSignature) (hlen : 8 ≤ png.length)
    (htr : (parseChunksL (png.drop 8)).2 = .trailer) :
    embedCardIntoPng png s opts =
      .ok (pngSignature ++
        serializeChunks (((parseChunksL (png.drop 8)).1.filter keepChunk).map
          Chunk.recompute)) := by
  conv_lhs => rw [png_decomp png hsig]
  rw [embed_sig, embedLoop_eq_embedOut]
  rcases hp : parseChunksL (png.drop 8) with ⟨cs, e⟩
  rw [hp] at htr
  simp only [] at htr
  subst htr
  simp only []
  have hno := parseChunksL_noIend (png.drop 8) (by rw [hp]; simp)
  rw [hp] at hno
  simp only [] at hno
  rw [embedOut_noIend _ cs hno]

theorem embed_ok_struct (png s : List Nat) (opts : EmbedOpts) (pre : List Chunk) (i : Chunk)
    (hsig : png.take 8 = pngSignature) (hlen : 8 ≤ png.length)
    (hparse : parseChunksL (png.drop 8) = (pre ++ [i], .iend)) :
    i.type = iendType ∧ (∀ c ∈ pre, ¬(c.type = iendType)) ∧
    embedCardIntoPng png s opts =
      .ok (pngSignature ++
        (serializeChunks ((pre.filter keepChunk).map Chunk.recompute) ++
          (serializeChunks (insertChunks s opts) ++ i.recompute.serialize))) := by
  have hstruct := parseChunksL_iend_struct (png.drop 8)
  rw [hparse] at hstruct
  obtain ⟨pre', i', h1, h2, h3⟩ := hstruct rfl
  simp only [] at h1
  obtain ⟨hpe, hie⟩ := List.append_inj' h1 rfl
  have hii : i = i' := by simpa using hie
  subst hii
  subst hpe
  refine ⟨h2, h3, ?_⟩
  conv_lhs => rw [png_decomp png hsig]
  rw [embed_sig, embedLoop_eq_embedOut, hparse]
  simp only []
  rw [embedOut_iend _ pre i h3 h2]
  simp [List.append_assoc]

theorem extractLoop_after_copies (ds : List Chunk)
    (hds : ∀ c ∈ ds, c.shapeWf ∧ c.isCardText = false ∧ ¬(c.type = iendType))
    (rest : List Nat) :
    extractLoop (serializeChunks ds ++ rest) = extractLoop rest := by
  induction ds with
  | nil => rfl
  | cons c cs ih =>
    obtain ⟨hwf, hcard, hiend⟩ := hds c (by simp)
    rw [serializeChunks, List.append_assoc, extractLoop_cons c _ hwf]
    rw [if_neg (by simp [hcard]), if_neg hiend]
    exact ih fun d hd => hds d (by simp [hd])
theorem parseTextChunkKeyword_none (d : List Nat) (h : 0 ∉ d ∨ d.head? = some 0) :
    parseTextChunkKeyword d = none := by
  rcases h with h | h
  · rw [parseTextChunkKeyword]
    have hn : d.findIdx? (· == 0) = none := by
      rw [List.findIdx?_eq_none_iff]
      intro x hx
      simp only [beq_eq_false_iff_ne, ne_eq]
      intro h0
      exact h (h0 ▸ hx)
    rw [hn]
  · cases d with
    | nil => simp at h
    | cons x xs =>
      simp only [List.head?_cons, Option.some.injEq] at h
      subst h
      rfl

/-! ## The claims -/

/-- C1, counterexample: the 8-byte signature alone begins with the PNG
signature and contains no IEND chunk (its chunk walk yields no chunks at
all), yet `embedCardIntoPng` does not fail: it returns an output buffer
(the bare signature), so the claim "the operation fails with a
TruncatedPng error; it does not return an output buffer" is false. -/
theorem embed_no_iend_cex :
    (parseChunksL (pngSignature.drop 8)).1 = [] ∧
      embedCardIntoPng pngSignature [123] ⟨true, true⟩ = .ok pngSignature := by
  constructor
  · simp [pngSignature, parseChunksL]
  · simp [embedCardIntoPng, embedLoop, pngSignature]

/-- C1, amended: if the buffer begins with the signature but its chunk
walk never reaches an IEND chunk, the insertion set is never written, but
the operation does not fail with a truncated-PNG error: when the walk
ends at a short trailer it returns the signature plus the kept re-encoded
chunks (an output buffer that does not depend on the payload or the write
flags), and it throws only when a chunk's declared span overruns the
buffer. -/
theorem embed_no_iend_amended (png s : List Nat) (opts : EmbedOpts)
    (hsig : png.take 8 = pngSignature) (hlen : 8 ≤ png.length)
    (hni : (parseChunksL (png.drop 8)).2 ≠ .iend) :
    embedCardIntoPng png s opts =
      (if (parseChunksL (png.drop 8)).2 = .overrun then .errCorruptChunk
       else .ok (pngSignature ++
         serializeChunks (((parseChunksL (png.drop 8)).1.filter keepChunk).map
           Chunk.recompute))) := by
  cases he : (parseChunksL (png.drop 8)).2 with
  | iend => exact absurd he hni
  | trailer =>
    rw [if_neg (by simp)]
    exact embed_ok_trailer png s opts hsig hlen he
  | overrun =>
    rw [if_pos rfl]
    exact embed_err_overrun png s opts hsig hlen he

theorem embed_no_iend_amended_witness :
    embedCardIntoPng pngSignature [1] ⟨true, true⟩ =
      (if (parseChunksL (pngSignature.drop 8)).2 = .overrun then .errCorruptChunk
       else .ok (pngSignature ++
         serializeChunks (((parseChunksL (pngSignature.drop 8)).1.filter keepChunk).map
           Chunk.recompute))) :=
  embed_no_iend_amended pngSignature [1] ⟨true, true⟩ (by decide) (by decide)
    (by simp [pngSignature, parseChunksL])

/-- C7: on any buffer that does not begin with the exact 8-byte PNG
signature (including buffers shorter than 8 bytes), `extractCardFromPng`
returns the not-found outcome — not an error — while `embedCardIntoPng`
fails hard with its not-a-PNG error. -/
theorem extract_lenient_embed_strict (png : List Nat)
    (hsig : png.take 8 ≠ pngSignature) :
    extractCardFromPng png = .notFound ∧
      ∀ (s : List Nat) (opts : EmbedOpts),
        embedCardIntoPng png s opts = .errNotAPng := by
  constructor
  · rw [extractCardFromPng, if_neg fun h => hsig h.2]
  · intro s opts
    rw [embedCardIntoPng, if_neg fun h => hsig h.2]

theorem extract_lenient_embed_strict_witness :
    extractCardFromPng [1, 2, 3] = .notFound ∧
      ∀ (s : List Nat) (opts : EmbedOpts),
        embedCardIntoPng [1, 2, 3] s opts = .errNotAPng :=
  extract_lenient_embed_strict [1, 2, 3] (by decide)

/-- C8: the table-driven `crc32` agrees with the bit-serial reflected
CRC-32 reference definition (polynomial `0xEDB88320`, initial value
`0xFFFFFFFF`, final complement) on every byte sequence, and the checksum
of the ASCII bytes of `"IEND"` is the standard value `0xAE426082`. -/
theorem crc32_matches_reference (bytes : List Nat) (hb : ByteList bytes) :
    crc32 bytes = crc32Ref bytes ∧ crc32 iendType = 0xAE426082 :=
  ⟨crc32_eq_ref bytes hb, by decide⟩

theorem crc32_matches_reference_witness :
    crc32 [73, 69, 78, 68] = crc32Ref [73, 69, 78, 68] ∧
      crc32 iendType = 0xAE426082 :=
  crc32_matches_reference [73, 69, 78, 68] (by decide)
theorem extract_first_carrier (ds : List Chunk) (c : Chunk) (tail : List Nat)
    (hds : ∀ d ∈ ds, d.shapeWf ∧ d.isCardText = false ∧ ¬(d.type = iendType))
    (hwf : c.shapeWf) (hcard : c.isCardText = true) :
    extractCardFromPng (pngSignature ++ (serializeChunks ds ++ (c.serialize ++ tail))) =
      c.decodeOutcome := by
  rw [extract_sig, extractLoop_after_copies ds hds, extractLoop_cons c tail hwf,
    if_pos hcard]

/-- C9: when the stream holds a first carrier tEXt chunk `c` after any
number of non-carrier, non-IEND chunks, extraction returns the outcome
decided by `c` alone, whatever bytes (in particular, further qualifying
carrier chunks) follow: scanning stops at the first match in on-disk
order, so earlier chunks shadow later ones and duplicates are never
merged. -/
theorem extract_first_match_wins (ds : List Chunk) (c : Chunk) (tail : List Nat)
    (hds : ∀ d ∈ ds, d.shapeWf ∧ d.isCardText = false ∧ ¬(d.type = iendType))
    (hwf : c.shapeWf) (hcard : c.isCardText = true) :
    extractCardFromPng (pngSignature ++ (serializeChunks ds ++ (c.serialize ++ tail))) =
      c.decodeOutcome :=
  extract_first_carrier ds c tail hds hwf hcard

theorem extract_first_match_wins_witness :
    extractCardFromPng (pngSignature ++ (serializeChunks [] ++
      ((⟨tEXtType, charaKw ++ [0] ++ [101, 51, 48, 61], [9, 9, 9, 9]⟩ : Chunk).serialize ++
        (⟨tEXtType, charaKw ++ [0] ++ [73, 106, 69, 105], [7, 7, 7, 7]⟩ : Chunk).serialize))) =
      (⟨tEXtType, charaKw ++ [0] ++ [101, 51, 48, 61], [9, 9, 9, 9]⟩ : Chunk).decodeOutcome :=
  extract_first_match_wins [] _ _ (by simp) (by decide) (by decide)

/-- C6: if the first carrier chunk's text bytes fail base64 or UTF-8
decoding, the whole extraction yields the decode-error outcome — it does
not skip the corrupt chunk and keep scanning the following bytes. -/
theorem extract_decode_strict_fail (ds : List Chunk) (c : Chunk) (tail : List Nat)
    (hds : ∀ d ∈ ds, d.shapeWf ∧ d.isCardText = false ∧ ¬(d.type = iendType))
    (hwf : c.shapeWf) (hcard : c.isCardText = true)
    (hfail : ∀ pr : List Nat × List Nat,
      parseTextChunkKeyword c.data = some pr → base64DecodeUtf8 pr.2 = none) :
    extractCardFromPng (pngSignature ++ (serializeChunks ds ++ (c.serialize ++ tail))) =
      .decodeError := by
  rw [extract_first_carrier ds c tail hds hwf hcard]
  rw [Chunk.decodeOutcome]
  simp only [Chunk.isCardText, Bool.and_eq_true, decide_eq_true_eq] at hcard
  obtain ⟨-, hm⟩ := hcard
  cases hp : parseTextChunkKeyword c.data with
  | none => rw [hp] at hm; simp at hm
  | some pr =>
    rw [hp] at hm
    have hm2 : pr.1 = charaKw ∨ pr.1 = ccv3Kw := by simpa using hm
    rcases hm2 with h1 | h1
    · simp [h1, hfail pr hp]
    · by_cases h2 : pr.1 = charaKw
      · simp [h2, hfail pr hp]
      · simp [h1, h2, hfail pr hp]

theorem extract_decode_strict_fail_witness :
    extractCardFromPng (pngSignature ++ (serializeChunks [] ++
      ((⟨tEXtType, charaKw ++ [0] ++ [33], [9, 9, 9, 9]⟩ : Chunk).serialize ++ []))) =
      .decodeError :=
  extract_decode_strict_fail [] _ [] (by simp) (by decide) (by decide)
    (by decide)

/-- C10: a tEXt chunk whose payload has no NUL byte at all, or whose
first byte is NUL, parses to no keyword; extraction treats it as a
non-carrier and continues scanning the following bytes without error, and
the embed loop copies it through (re-serialised like every kept chunk)
rather than dropping it. -/
theorem malformed_text_chunk_tolerated (c : Chunk) (tail t : List Nat)
    (hwf : c.shapeWf) (htext : c.type = tEXtType)
    (hbad : 0 ∉ c.data ∨ c.data.head? = some 0) :
    parseTextChunkKeyword c.data = none ∧
      extractCardFromPng (pngSignature ++ (c.serialize ++ tail)) = extractLoop tail ∧
      embedLoop t (c.serialize ++ tail) =
        (match embedLoop t tail with
         | .ok rest => .ok (c.recompute.serialize ++ rest)
         | e => e) := by
  have hparse := parseTextChunkKeyword_none c.data hbad
  have hcard : c.isCardText = false := by
    simp [Chunk.isCardText, hparse]
  have hiend : ¬(c.type = iendType) := by
    rw [htext]
    exact fun h => iend_ne_tEXt h.symm
  refine ⟨hparse, ?_, ?_⟩
  · rw [extract_sig, extractLoop_cons c tail hwf, if_neg (by simp [hcard]), if_neg hiend]
  · rw [embedLoop_cons t c tail hwf, if_neg hiend]
    simp [hcard]

theorem malformed_text_chunk_tolerated_witness :
    parseTextChunkKeyword (⟨tEXtType, [1, 2, 3], [9, 9, 9, 9]⟩ : Chunk).data = none ∧
      extractCardFromPng (pngSignature ++
        ((⟨tEXtType, [1, 2, 3], [9, 9, 9, 9]⟩ : Chunk).serialize ++ [])) = extractLoop [] ∧
      embedLoop [] ((⟨tEXtType, [1, 2, 3], [9, 9, 9, 9]⟩ : Chunk).serialize ++ []) =
        (match embedLoop [] [] with
         | .ok rest => .ok ((⟨tEXtType, [1, 2, 3], [9, 9, 9, 9]⟩ : Chunk).recompute.serialize ++ rest)
         | e => e) :=
  malformed_text_chunk_tolerated _ [] [] (by decide) (by decide) (by decide)
theorem kept_chunks_props (pre : List Chunk)
    (hwf : ∀ c ∈ pre, c.shapeWf) (hpre : ∀ c ∈ pre, ¬(c.type = iendType)) :
    ∀ c ∈ (pre.filter keepChunk).map Chunk.recompute,
      c.shapeWf ∧ c.isCardText = false ∧ ¬(c.type = iendType) := by
  intro c hc
  obtain ⟨d, hd, hrec⟩ := List.mem_map.mp hc
  have hdf := List.mem_filter.mp hd
  have hkeep : d.isCardText = false := by
    have hk := hdf.2
    simp [keepChunk] at hk
    exact hk
  subst hrec
  exact ⟨Chunk.recompute_shapeWf d (hwf d hdf.1), by rw [Chunk.recompute_isCardText]; exact hkeep,
    by rw [Chunk.recompute_type]; exact hpre d hdf.1⟩

theorem insertChunks_props (s : List Nat) (opts : EmbedOpts) (hs : s.length < 2 ^ 30) :
    ∀ c ∈ insertChunks s opts,
      c.shapeWf ∧ ¬(c.type = iendType) ∧ c.isCardText = true := by
  intro c hc
  rw [insertChunks] at hc
  have htype : ∀ kw, (textChunkOf kw (base64EncodeUtf8 s)).type = tEXtType := fun _ => rfl
  have hniend : ∀ kw : List Nat, ¬((textChunkOf kw (base64EncodeUtf8 s)).type = iendType) := by
    intro kw h
    rw [htype kw] at h
    exact iend_ne_tEXt h.symm
  rcases List.mem_append.mp hc with h | h
  · cases hw : opts.writeChara
    · rw [hw] at h
      simp at h
    · rw [hw] at h
      simp only [if_true] at h
      have hcc : c = textChunkOf charaKw (base64EncodeUtf8 s) := by simpa using h
      subst hcc
      exact ⟨textChunkOf_shapeWf charaKw s (by decide) hs, hniend _,
        textChunkOf_isCardText_chara _⟩
  · cases hw : opts.writeCcv3
    · rw [hw] at h
      simp at h
    · rw [hw] at h
      simp only [if_true] at h
      have hcc : c = textChunkOf ccv3Kw (base64EncodeUtf8 s) := by simpa using h
      subst hcc
      exact ⟨textChunkOf_shapeWf ccv3Kw s (by decide) hs, hniend _,
        textChunkOf_isCardText_ccv3 _⟩

theorem embed_parse_out (png s : List Nat) (opts : EmbedOpts) (pre : List Chunk) (i : Chunk)
    (hwf : ∀ c ∈ pre, c.shapeWf) (hiwf : i.shapeWf)
    (hsig : png.take 8 = pngSignature) (hlen : 8 ≤ png.length)
    (hparse : parseChunksL (png.drop 8) = (pre ++ [i], .iend)) (hs : s.length < 2 ^ 30) :
    embedCardIntoPng png s opts =
      .ok (pngSignature ++
        (serializeChunks ((pre.filter keepChunk).map Chunk.recompute) ++
          (serializeChunks (insertChunks s opts) ++ i.recompute.serialize))) ∧
    parseChunksL ((pngSignature ++
        (serializeChunks ((pre.filter keepChunk).map Chunk.recompute) ++
          (serializeChunks (insertChunks s opts) ++ i.recompute.serialize))).drop 8) =
      ((pre.filter keepChunk).map Chunk.recompute ++ (insertChunks s opts ++ [i.recompute]),
        .iend) := by
  obtain ⟨hi, hpre, hok⟩ := embed_ok_struct png s opts pre i hsig hlen hparse
  refine ⟨hok, ?_⟩
  have h8 : pngSignature.length = 8 := rfl
  rw [List.drop_left' h8]
  have hkept := kept_chunks_props pre hwf hpre
  have hins := insertChunks_props s opts hs
  have hall : ∀ c ∈ (pre.filter keepChunk).map Chunk.recompute ++ insertChunks s opts,
      c.shapeWf ∧ ¬(c.type = iendType) := by
    intro c hc
    rcases List.mem_append.mp hc with h | h
    · exact ⟨(hkept c h).1, (hkept c h).2.2⟩
    · exact ⟨(hins c h).1, (hins c h).2.1⟩
  have hrec_iend : i.recompute.type = iendType := by rw [Chunk.recompute_type]; exact hi
  have hrec_wf : i.recompute.shapeWf := Chunk.recompute_shapeWf i hiwf
  have hshape : serializeChunks ((pre.filter keepChunk).map Chunk.recompute) ++
      (serializeChunks (insertChunks s opts) ++ i.recompute.serialize) =
      serializeChunks ((pre.filter keepChunk).map Chunk.recompute ++ insertChunks s opts) ++
        (i.recompute.serialize ++ []) := by
    rw [serializeChunks_append]
    simp [List.append_assoc]
  rw [hshape, parseChunksL_print_iend _ _ _ hall hrec_wf hrec_iend]
  simp [List.append_assoc]

/-- C2, amended: for every chunk of `p` that is not a carrier tEXt chunk,
a chunk with identical type and payload (hence identical length field)
appears in `embed(p, s)` in the same relative order, but with the CRC
field freshly recomputed over type-plus-payload; the copy is
byte-identical exactly when the source chunk's stored CRC already equals
that recomputed value. -/
theorem embed_nondestructive_amended (png s : List Nat) (opts : EmbedOpts)
    (pre : List Chunk) (i : Chunk)
    (hb : ByteList png) (hsig : png.take 8 = pngSignature) (hlen : 8 ≤ png.length)
    (hparse : parseChunksL (png.drop 8) = (pre ++ [i], .iend))
    (hs : s.length < 2 ^ 30) :
    ∃ out, embedCardIntoPng png s opts = .ok out ∧
      parseChunksL (out.drop 8) =
        ((pre.filter keepChunk).map Chunk.recompute ++
          (insertChunks s opts ++ [i.recompute]), .iend) ∧
      (∀ c : Chunk, c.recompute.type = c.type ∧ c.recompute.data = c.data ∧
        c.recompute.crc = writeUint32BE (crc32 (c.type ++ c.data))) ∧
      (∀ c : Chunk, c.crc = writeUint32BE (crc32 (c.type ++ c.data)) → c.recompute = c) := by
  have hwfs := parseChunksL_shapeWf (png.drop 8) (ByteList.drop hb 8)
  rw [hparse] at hwfs
  obtain ⟨hok, hpout⟩ := embed_parse_out png s opts pre i
    (fun c hc => hwfs c (by simp [hc])) (hwfs i (by simp)) hsig hlen hparse hs
  refine ⟨_, hok, hpout, fun c => ⟨rfl, rfl, rfl⟩, fun c hcrc => ?_⟩
  show Chunk.mk c.type c.data (writeUint32BE (crc32 (c.type ++ c.data))) = c
  rw [← hcrc]

theorem parse_badIendPng :
    parseChunksL ((pngSignature ++ [0, 0, 0, 0, 73, 69, 78, 68, 0, 0, 0, 0]).drop 8) =
      (([] : List Chunk) ++ [⟨iendType, [], [0, 0, 0, 0]⟩], .iend) := by
  have hd : (pngSignature ++ [0, 0, 0, 0, 73, 69, 78, 68, 0, 0, 0, 0]).drop 8 =
      (⟨iendType, [], [0, 0, 0, 0]⟩ : Chunk).serialize ++ [] := by decide
  rw [hd, parseChunksL_cons _ _ (by decide), if_pos (by decide)]
  rfl

theorem embed_nondestructive_amended_witness :
    ∃ out, embedCardIntoPng (pngSignature ++ [0, 0, 0, 0, 73, 69, 78, 68, 0, 0, 0, 0])
        [123] ⟨true, true⟩ = .ok out ∧
      parseChunksL (out.drop 8) =
        ((([] : List Chunk).filter keepChunk).map Chunk.recompute ++
          (insertChunks [123] ⟨true, true⟩ ++
            [(⟨iendType, [], [0, 0, 0, 0]⟩ : Chunk).recompute]), .iend) ∧
      (∀ c : Chunk, c.recompute.type = c.type ∧ c.recompute.data = c.data ∧
        c.recompute.crc = writeUint32BE (crc32 (c.type ++ c.data))) ∧
      (∀ c : Chunk, c.crc = writeUint32BE (crc32 (c.type ++ c.data)) → c.recompute = c) :=
  embed_nondestructive_amended _ [123] ⟨true, true⟩ [] ⟨iendType, [], [0, 0, 0, 0]⟩
    (by decide) (by decide) (by decide) parse_badIendPng (by decide)
set_option maxRecDepth 4000 in
/-- C2, counterexample: the input PNG holds exactly one chunk — an IEND
chunk whose stored CRC bytes are `[0,0,0,0]` (not the correct checksum).
That chunk is not a carrier tEXt chunk, so the claim says a byte-identical
chunk (same CRC bytes included) must appear in the embed output.  The
embed succeeds, but its output contains no such chunk: the copied IEND
chunk carries the freshly computed CRC `0xAE426082` instead of the
original bytes. -/
theorem embed_byte_identity_cex :
    (parseChunksL ((pngSignature ++ [0, 0, 0, 0, 73, 69, 78, 68, 0, 0, 0, 0]).drop 8)).1 =
        [⟨iendType, [], [0, 0, 0, 0]⟩] ∧
      embedCardIntoPng (pngSignature ++ [0, 0, 0, 0, 73, 69, 78, 68, 0, 0, 0, 0]) []
          ⟨true, true⟩ = .ok embedBadIendOut ∧
      (⟨iendType, [], [0, 0, 0, 0]⟩ : Chunk) ∉ (parseChunksL (embedBadIendOut.drop 8)).1 := by
  refine ⟨?_, ?_, ?_⟩
  · rw [parse_badIendPng]
    rfl
  · obtain ⟨hok, -⟩ := embed_parse_out _ [] ⟨true, true⟩ [] ⟨iendType, [], [0, 0, 0, 0]⟩
      (by simp) (by decide) (by decide) (by decide) parse_badIendPng (by decide)
    rw [hok]
    exact congrArg EmbedResult.ok (by decide)
  · have h1 : embedBadIendOut.drop 8 =
        (⟨tEXtType, [99, 104, 97, 114, 97, 0], [153, 226, 32, 81]⟩ : Chunk).serialize ++
          ((⟨tEXtType, [99, 99, 118, 51, 0], [249, 164, 134, 91]⟩ : Chunk).serialize ++
            ((⟨iendType, [], [174, 66, 96, 130]⟩ : Chunk).serialize ++ [])) := by decide
    rw [h1, parseChunksL_cons _ _ (by decide), if_neg (by decide),
      parseChunksL_cons _ _ (by decide), if_neg (by decide),
      parseChunksL_cons _ _ (by decide), if_pos (by decide)]
    simp only [List.mem_cons]
    decide
theorem insertChunks_crc (s : List Nat) (opts : EmbedOpts) :
    ∀ c ∈ insertChunks s opts, c.crc = writeUint32BE (crc32 (c.type ++ c.data)) := by
  intro c hc
  rw [insertChunks] at hc
  rcases List.mem_append.mp hc with h | h
  · cases hw : opts.writeChara
    · rw [hw] at h
      simp at h
    · rw [hw] at h
      simp only [if_true] at h
      have hcc : c = textChunkOf charaKw (base64EncodeUtf8 s) := by simpa using h
      subst hcc
      rfl
  · cases hw : opts.writeCcv3
    · rw [hw] at h
      simp at h
    · rw [hw] at h
      simp only [if_true] at h
      have hcc : c = textChunkOf ccv3Kw (base64EncodeUtf8 s) := by simpa using h
      subst hcc
      rfl

theorem parse_pair_of_components (rest : List Nat) (cs : List Chunk) (e : WalkEnd)
    (h1 : (parseChunksL rest).1 = cs) (h2 : (parseChunksL rest).2 = e) :
    parseChunksL rest = (cs, e) := by
  rw [← h1, ← h2]

/-- C5: every chunk in a buffer returned by `embedCardIntoPng` — the
newly inserted tEXt chunks as well as every copied chunk — carries a CRC
field equal to the fresh checksum of its type tag concatenated with its
payload, regardless of whether the corresponding input chunk's stored CRC
was correct. -/
theorem embed_fresh_crc (png s out : List Nat) (opts : EmbedOpts)
    (hb : ByteList png) (hs : s.length < 2 ^ 30)
    (hok : embedCardIntoPng png s opts = .ok out) :
    ∀ c ∈ (parseChunksL (out.drop 8)).1,
      c.crc = writeUint32BE (crc32 (c.type ++ c.data)) := by
  have h8 : pngSignature.length = 8 := rfl
  have hsig : 8 ≤ png.length ∧ png.take 8 = pngSignature := by
    by_contra hng
    rw [embedCardIntoPng, if_neg hng] at hok
    exact absurd hok (by simp)
  cases he : (parseChunksL (png.drop 8)).2 with
  | overrun =>
    rw [embed_err_overrun png s opts hsig.2 hsig.1 he] at hok
    exact absurd hok (by simp)
  | trailer =>
    rw [embed_ok_trailer png s opts hsig.2 hsig.1 he] at hok
    have hout := EmbedResult.ok.inj hok
    rw [← hout, List.drop_left' h8]
    have hwf := parseChunksL_shapeWf (png.drop 8) (ByteList.drop hb 8)
    have hni := parseChunksL_noIend (png.drop 8) (by rw [he]; simp)
    have hprops := kept_chunks_props (parseChunksL (png.drop 8)).1 hwf hni
    rw [parseChunksL_print_noIend _ fun c hc => ⟨(hprops c hc).1, (hprops c hc).2.2⟩]
    intro c hc
    obtain ⟨d, hd, hrec⟩ := List.mem_map.mp hc
    rw [← hrec]
    rfl
  | iend =>
    obtain ⟨pre, i, h1, h2, h3⟩ := parseChunksL_iend_struct (png.drop 8) he
    have hparse := parse_pair_of_components (png.drop 8) (pre ++ [i]) .iend h1 he
    have hwfs := parseChunksL_shapeWf (png.drop 8) (ByteList.drop hb 8)
    rw [hparse] at hwfs
    obtain ⟨hok2, hpout⟩ := embed_parse_out png s opts pre i
      (fun c hc => hwfs c (by simp [hc])) (hwfs i (by simp)) hsig.2 hsig.1 hparse hs
    rw [hok2] at hok
    have hout := EmbedResult.ok.inj hok
    rw [← hout, hpout]
    intro c hc
    rcases List.mem_append.mp hc with h | h
    · obtain ⟨d, hd, hrec⟩ := List.mem_map.mp h
      rw [← hrec]
      rfl
    · rcases List.mem_append.mp h with h | h
      · exact insertChunks_crc s opts c h
      · have hci : c = i.recompute := by simpa using h
        rw [hci]
        rfl

set_option maxRecDepth 4000 in
theorem embed_fresh_crc_witness :
    ((parseChunksL (embedBadIendOut.drop 8)).1.all fun c =>
      c.crc == writeUint32BE (crc32 (c.type ++ c.data))) = true := by
  have hok : embedCardIntoPng (pngSignature ++ [0, 0, 0, 0, 73, 69, 78, 68, 0, 0, 0, 0]) []
      ⟨true, true⟩ = .ok embedBadIendOut := by
    obtain ⟨hok, -⟩ := embed_parse_out _ [] ⟨true, true⟩ [] ⟨iendType, [], [0, 0, 0, 0]⟩
      (by simp) (by decide) (by decide) (by decide) parse_badIendPng (by decide)
    rw [hok]
    exact congrArg EmbedResult.ok (by decide)
  have h := embed_fresh_crc (pngSignature ++ [0, 0, 0, 0, 73, 69, 78, 68, 0, 0, 0, 0]) []
    embedBadIendOut ⟨true, true⟩ (by decide) (by decide) hok
  rw [List.all_eq_true]
  intro c hc
  simpa using h c hc
/-- C3: embedding any UTF-8 payload `s` into a valid PNG (signature plus
a well-formed chunk walk ending at IEND) with `writeChara` and without
`writeCcv3`, then extracting from the result, succeeds and returns
keyword `chara` with `s` itself. -/
theorem embed_extract_roundtrip (png s : List Nat) (pre : List Chunk) (i : Chunk)
    (hb : ByteList png) (hsig : png.take 8 = pngSignature) (hlen : 8 ≤ png.length)
    (hparse : parseChunksL (png.drop 8) = (pre ++ [i], .iend))
    (hsb : ByteList s) (hv : utf8Valid s = true) (hslen : s.length < 2 ^ 30) :
    ∃ out, embedCardIntoPng png s ⟨false, true⟩ = .ok out ∧
      extractCardFromPng out = .card .chara s := by
  have hwfs := parseChunksL_shapeWf (png.drop 8) (ByteList.drop hb 8)
  rw [hparse] at hwfs
  obtain ⟨hi, hpre, hok⟩ := embed_ok_struct png s ⟨false, true⟩ pre i hsig hlen hparse
  refine ⟨_, hok, ?_⟩
  have hkept := kept_chunks_props pre (fun c hc => hwfs c (by simp [hc])) hpre
  have hshape : serializeChunks (insertChunks s ⟨false, true⟩) ++ i.recompute.serialize =
      (textChunkOf charaKw (base64EncodeUtf8 s)).serialize ++ i.recompute.serialize := by
    simp [insertChunks, serializeChunks]
  rw [hshape]
  rw [extract_first_carrier _ _ _ hkept
    (textChunkOf_shapeWf charaKw s (by decide) hslen) (textChunkOf_isCardText_chara _)]
  exact textChunkOf_decodeOutcome_chara s hsb hv

theorem parse_minimalPng :
    parseChunksL ((pngSignature ++ [0, 0, 0, 0, 73, 69, 78, 68, 174, 66, 96, 130]).drop 8) =
      (([] : List Chunk) ++ [⟨iendType, [], [174, 66, 96, 130]⟩], .iend) := by
  have hd : (pngSignature ++ [0, 0, 0, 0, 73, 69, 78, 68, 174, 66, 96, 130]).drop 8 =
      (⟨iendType, [], [174, 66, 96, 130]⟩ : Chunk).serialize ++ [] := by decide
  rw [hd, parseChunksL_cons _ _ (by decide), if_pos (by decide)]
  rfl

theorem embed_extract_roundtrip_witness :
    ∃ out, embedCardIntoPng (pngSignature ++ [0, 0, 0, 0, 73, 69, 78, 68, 174, 66, 96, 130])
        [123, 125] ⟨false, true⟩ = .ok out ∧
      extractCardFromPng out = .card .chara [123, 125] :=
  embed_extract_roundtrip _ [123, 125] [] ⟨iendType, [], [174, 66, 96, 130]⟩
    (by decide) (by decide) (by decide) parse_minimalPng (by decide) (by decide) (by decide)
theorem countCarrier_append (kw : List Nat) (xs ys : List Chunk) :
    countCarrier kw (xs ++ ys) = countCarrier kw xs + countCarrier kw ys := by
  simp [countCarrier, List.filter_append]

theorem carrierPred_isCardText (kw : List Nat) (hkw : kw = charaKw ∨ kw = ccv3Kw)
    (c : Chunk)
    (h : (c.type = tEXtType &&
      match parseTextChunkKeyword c.data with
      | some pr => pr.1 = kw
      | none => false) = true) : c.isCardText = true := by
  simp only [Bool.and_eq_true, decide_eq_true_eq] at h
  obtain ⟨ht, hm⟩ := h
  rw [Chunk.isCardText]
  cases hp : parseTextChunkKeyword c.data with
  | none => rw [hp] at hm; simp at hm
  | some pr =>
    rw [hp] at hm
    have hpr : pr.1 = kw := by simpa using hm
    rcases hkw with hk | hk <;> simp [ht, hpr, hk]

theorem countCarrier_nonCard (kw : List Nat) (hkw : kw = charaKw ∨ kw = ccv3Kw)
    (cs : List Chunk) (h : ∀ c ∈ cs, c.isCardText = false) :
    countCarrier kw cs = 0 := by
  rw [countCarrier]
  rw [show cs.filter (fun c => c.type = tEXtType &&
      match parseTextChunkKeyword c.data with
      | some pr => pr.1 = kw
      | none => false) = [] from ?_]
  · rfl
  · rw [List.filter_eq_nil_iff]
    intro c hc hp
    have h1 := carrierPred_isCardText kw hkw c hp
    rw [h c hc] at h1
    exact absurd h1 (by simp)

theorem countCarrier_textChunkOf (kw kw' b64 : List Nat) (hnz : ∀ x ∈ kw', x ≠ 0)
    (hne : kw' ≠ []) :
    countCarrier kw [textChunkOf kw' b64] = if kw' = kw then 1 else 0 := by
  rw [countCarrier]
  have hparse : parseTextChunkKeyword (textChunkOf kw' b64).data = some (kw', b64) := by
    rw [show (textChunkOf kw' b64).data = kw' ++ [0] ++ b64 from rfl]
    exact parseTextChunkKeyword_concat kw' b64 hnz hne
  have htype : (textChunkOf kw' b64).type = tEXtType := rfl
  by_cases hk : kw' = kw
  · rw [if_pos hk]
    subst hk
    simp [List.filter_cons, hparse, htype]
  · rw [if_neg hk]
    simp [List.filter_cons, hparse, htype, hk]

theorem countCarrier_iendChunk (kw : List Nat) (c : Chunk) (hc : c.type = iendType) :
    countCarrier kw [c] = 0 := by
  rw [countCarrier]
  have hne : ¬(c.type = tEXtType) := by
    rw [hc]
    exact iend_ne_tEXt
  simp [List.filter, hne]
/-- C4: embedding payload `s1` and then payload `s2` (both keywords
requested) leaves exactly one tEXt chunk per requested keyword in the
final buffer — the chunks of the first embed are dropped, not
accumulated — and extraction returns `s2`, never `s1`. -/
theorem embed_twice_replaces (png s1 s2 : List Nat) (pre : List Chunk) (i : Chunk)
    (hb : ByteList png) (hsig : png.take 8 = pngSignature) (hlen : 8 ≤ png.length)
    (hparse : parseChunksL (png.drop 8) = (pre ++ [i], .iend))
    (hs1 : s1.length < 2 ^ 30)
    (hsb2 : ByteList s2) (hv2 : utf8Valid s2 = true) (hs2 : s2.length < 2 ^ 30) :
    ∃ out1 out2,
      embedCardIntoPng png s1 ⟨true, true⟩ = .ok out1 ∧
      embedCardIntoPng out1 s2 ⟨true, true⟩ = .ok out2 ∧
      countCarrier charaKw (parseChunksL (out2.drop 8)).1 = 1 ∧
      countCarrier ccv3Kw (parseChunksL (out2.drop 8)).1 = 1 ∧
      extractCardFromPng out2 = .card .chara s2 ∧
      (s1 ≠ s2 → extractCardFromPng out2 ≠ .card .chara s1) := by
  have h8 : pngSignature.length = 8 := rfl
  have hwfs := parseChunksL_shapeWf (png.drop 8) (ByteList.drop hb 8)
  rw [hparse] at hwfs
  have hwfpre : ∀ c ∈ pre, c.shapeWf := fun c hc => hwfs c (by simp [hc])
  have hwfi : i.shapeWf := hwfs i (by simp)
  obtain ⟨hok1, hpout1⟩ := embed_parse_out png s1 ⟨true, true⟩ pre i hwfpre hwfi hsig hlen
    hparse hs1
  have hstruct := parseChunksL_iend_struct (png.drop 8)
  rw [hparse] at hstruct
  obtain ⟨pre0, i0, he1, he2, he3⟩ := hstruct rfl
  simp only [] at he1
  obtain ⟨hpe, hie⟩ := List.append_inj' he1 rfl
  have hii : i = i0 := by simpa using hie
  subst hpe
  subst hii
  have hkept := kept_chunks_props pre hwfpre he3
  have hins1 := insertChunks_props s1 ⟨true, true⟩ hs1
  set A := (pre.filter keepChunk).map Chunk.recompute with hA
  set Ins1 := insertChunks s1 ⟨true, true⟩ with hIns1
  set out1 := pngSignature ++
    (serializeChunks A ++ (serializeChunks Ins1 ++ i.recompute.serialize)) with hout1
  have hparse2 : parseChunksL (out1.drop 8) = ((A ++ Ins1) ++ [i.recompute], .iend) := by
    rw [hpout1, List.append_assoc]
  have hwf2 : ∀ c ∈ A ++ Ins1, c.shapeWf := by
    intro c hc
    rcases List.mem_append.mp hc with h | h
    exacts [(hkept c h).1, (hins1 c h).1]
  obtain ⟨hok2, hpout2⟩ := embed_parse_out out1 s2 ⟨true, true⟩ (A ++ Ins1) i.recompute
    hwf2 (Chunk.recompute_shapeWf i hwfi)
    (by rw [hout1]; exact List.take_left' h8)
    (by rw [hout1, List.length_append, h8]; omega)
    hparse2 hs2
  have hfilterA : A.filter keepChunk = A := by
    rw [List.filter_eq_self]
    intro c hc
    simp [keepChunk, (hkept c hc).2.1]
  have hfilterIns : Ins1.filter keepChunk = [] := by
    rw [List.filter_eq_nil_iff]
    intro c hc hkc
    have hcard := (hins1 c hc).2.2
    simp [keepChunk, hcard] at hkc
  have hmapA : A.map Chunk.recompute = A := by
    rw [hA, List.map_map]
    have hcomp : Chunk.recompute ∘ Chunk.recompute = Chunk.recompute :=
      funext fun c => Chunk.recompute_idem c
    rw [hcomp]
  have hsimp1 : ((A ++ Ins1).filter keepChunk).map Chunk.recompute = A := by
    rw [List.filter_append, hfilterA, hfilterIns, List.append_nil, hmapA]
  have hidem : i.recompute.recompute = i.recompute := Chunk.recompute_idem i
  rw [hsimp1, hidem] at hok2 hpout2
  have hins2eq : insertChunks s2 ⟨true, true⟩ =
      [textChunkOf charaKw (base64EncodeUtf8 s2)] ++
        [textChunkOf ccv3Kw (base64EncodeUtf8 s2)] := rfl
  have hcount : ∀ kw : List Nat, kw = charaKw ∨ kw = ccv3Kw →
      countCarrier kw (A ++ (insertChunks s2 ⟨true, true⟩ ++ [i.recompute])) =
        countCarrier kw (insertChunks s2 ⟨true, true⟩) := by
    intro kw hkw
    rw [countCarrier_append, countCarrier_append]
    rw [countCarrier_nonCard kw hkw A fun c hc => (hkept c hc).2.1]
    rw [countCarrier_iendChunk kw i.recompute (by rw [Chunk.recompute_type]; exact he2)]
    omega
  have hextract : extractCardFromPng (pngSignature ++
      (serializeChunks A ++
        (serializeChunks (insertChunks s2 ⟨true, true⟩) ++ i.recompute.serialize))) =
      .card .chara s2 := by
    rw [show serializeChunks (insertChunks s2 ⟨true, true⟩) ++ i.recompute.serialize =
      (textChunkOf charaKw (base64EncodeUtf8 s2)).serialize ++
        ((textChunkOf ccv3Kw (base64EncodeUtf8 s2)).serialize ++ i.recompute.serialize)
      from by simp [serializeChunks, insertChunks]]
    rw [extract_first_carrier A _ _ hkept
      (textChunkOf_shapeWf charaKw s2 (by decide) hs2) (textChunkOf_isCardText_chara _)]
    exact textChunkOf_decodeOutcome_chara s2 hsb2 hv2
  refine ⟨out1, _, hok1, hok2, ?_, ?_, hextract, ?_⟩
  · rw [hpout2]
    simp only []
    rw [hcount charaKw (Or.inl rfl), hins2eq, countCarrier_append,
      countCarrier_textChunkOf _ _ _ charaKw_nonzero (by decide),
      countCarrier_textChunkOf _ _ _ ccv3Kw_nonzero (by decide)]
    simp [charaKw, ccv3Kw]
  · rw [hpout2]
    simp only []
    rw [hcount ccv3Kw (Or.inr rfl), hins2eq, countCarrier_append,
      countCarrier_textChunkOf _ _ _ charaKw_nonzero (by decide),
      countCarrier_textChunkOf _ _ _ ccv3Kw_nonzero (by decide)]
    simp [charaKw, ccv3Kw]
  · intro hne hcontra
    rw [hextract] at hcontra
    have hss : s2 = s1 := by
      have := ExtractOutcome.card.inj hcontra
      exact this.2
    exact hne hss.symm
theorem embed_twice_replaces_witness :
    ∃ out1 out2,
      embedCardIntoPng (pngSignature ++ [0, 0, 0, 0, 73, 69, 78, 68, 174, 66, 96, 130]) [49]
          ⟨true, true⟩ = .ok out1 ∧
      embedCardIntoPng out1 [50] ⟨true, true⟩ = .ok out2 ∧
      countCarrier charaKw (parseChunksL (out2.drop 8)).1 = 1 ∧
      countCarrier ccv3Kw (parseChunksL (out2.drop 8)).1 = 1 ∧
      extractCardFromPng out2 = .card .chara [50] ∧
      (([49] : List Nat) ≠ [50] → extractCardFromPng out2 ≠ .card .chara [49]) :=
  embed_twice_replaces _ [49] [50] [] ⟨iendType, [], [174, 66, 96, 130]⟩
    (by decide) (by decide) (by decide) parse_minimalPng (by decide) (by decide) (by decide)
    (by decide)

end CardMaker
